import Mathlib

/-!
# Verification of the chemprop `mpn.py` graph batcher and message passing network

This file is a shallow embedding of `mpn.py`:

* feature encoders `onek_encoding_unk`, `atom_features`, `bond_features`;
* the graph batcher `mol2graph` with its module-level memoization cache
  `SMILES_TO_FEATURES` (modelled as explicit state threaded through the call)
  and the toolkit (RDKit) modelled as an abstract record of operations, with a
  trace recording which toolkit operations each cache miss performs;
* the `MPN` message-passing forward pass over rationals, with the activation,
  softmax and dropout masks abstracted as function-valued parameters (the
  real code uses floating point, exp-based softmax and random dropout masks).

Feature values are modelled as integers (the real code stores them in float
tensors; all feature entries produced without 3D mode are integral, and the 3D
Euclidean distance is abstracted as an integer-valued toolkit field).
-/

/-- RDKit bond type, restricted to the cases `bond_features` distinguishes. -/
inductive BondType where
  | single
  | double
  | triple
  | aromatic
  | other
deriving DecidableEq, Repr

/-- The per-atom properties `atom_features` reads off an RDKit atom.
`hybridization` is the integer value of the RDKit hybridization enum. -/
structure Atom where
  atomicNum : Int
  degree : Int
  formalCharge : Int
  chiralTag : Int
  implicitValence : Int
  numHs : Int
  hybridization : Int
  numRadicalElectrons : Int
  isAromatic : Bool
deriving DecidableEq, Repr

/-- The per-bond properties `bond_features` reads off an RDKit bond. -/
structure Bond where
  bondType : BondType
  isConjugated : Bool
  isInRing : Bool
  stereo : Int
deriving DecidableEq, Repr

/-- An RDKit molecule as `mol2graph` consumes it: an ordered atom list, the
bond lookup `GetBondBetweenAtoms`, the topological distance matrix
`GetDistanceMatrix` and the 3D distance matrix `Get3DDistanceMatrix`
(the latter abstracted to integer values). -/
structure Molecule where
  atoms : List Atom
  bond : Nat → Nat → Option Bond
  distPath : Nat → Nat → Int
  dist3d : Nat → Nat → Int

/-- The RDKit operations `mol2graph` calls.  `parse` is `Chem.MolFromSmiles`
(returning `none` on a malformed notation), `addHs`/`removeHs` are
`Chem.AddHs`/`Chem.RemoveHs`, and `embed` is conformer generation
(`AllChem.EmbedMolecule` with ETKDG), modelled as a molecule transformer. -/
structure Toolkit where
  parse : String → Option Molecule
  addHs : Molecule → Molecule
  embed : Molecule → Molecule
  removeHs : Molecule → Molecule

/-- The three feature-mode flags of `mol2graph`. -/
structure Flags where
  addHs : Bool
  three_d : Bool
  virtual_edges : Bool
deriving DecidableEq, Repr

/-- A toolkit call performed during a cache miss, in program order. -/
inductive TkCall where
  | parseCall
  | addHsCall
  | embedCall
  | removeHsCall
  | get3DDistanceMatrix
  | getDistanceMatrix
deriving DecidableEq, Repr

/-! ## Feature dimension constants (`ATOM_FEATURES`, `ATOM_FDIM`, `BOND_FDIM`) -/

def ATOM_FEATURES_atomic_num : List Int := (List.range 100).map (fun n => (n : Int))

def ATOM_FEATURES_degree : List Int := [0, 1, 2, 3, 4, 5]

def ATOM_FEATURES_formal_charge : List Int := [-1, -2, 1, 2, 0]

def ATOM_FEATURES_chiral_tag : List Int := [0, 1, 2, 3]

def ATOM_FEATURES_implicit_valence : List Int := [0, 1, 2, 3, 4, 5, 6]

def ATOM_FEATURES_num_Hs : List Int := [0, 1, 2, 3, 4]

/-- Integer values of the five RDKit hybridization enum members listed in
`ATOM_FEATURES['hybridization']` (SP, SP2, SP3, SP3D, SP3D2). -/
def ATOM_FEATURES_hybridization : List Int := [2, 3, 4, 6, 7]

def ATOM_FEATURES_num_radical_electrons : List Int := [0, 1, 2]

/-- The choice lists of `ATOM_FEATURES`, in the order `atom_features`
concatenates them. -/
def ATOM_FEATURES_lists : List (List Int) :=
  [ATOM_FEATURES_atomic_num, ATOM_FEATURES_degree, ATOM_FEATURES_formal_charge,
   ATOM_FEATURES_chiral_tag, ATOM_FEATURES_implicit_valence, ATOM_FEATURES_num_Hs,
   ATOM_FEATURES_hybridization, ATOM_FEATURES_num_radical_electrons]

/-- `len(choices) + 1` for each feature to include room for uncommon values;
`+ 1` at the end for IsAromatic. -/
def ATOM_FDIM : Nat := (ATOM_FEATURES_lists.map (fun choices => choices.length + 1)).sum + 1

def BOND_FDIM : Nat := 14

def get_atom_fdim : Nat := ATOM_FDIM

def get_bond_fdim (three_d : Bool) (virtual_edges : Bool) : Nat :=
  BOND_FDIM + (if three_d then 1 else 0) + 11 * (if virtual_edges then 1 else 0)

/-! ## Feature encoders -/

/-- `onek_encoding_unk`: a zero list of length `len(choices) + 1` with a single
`1` written at `choices.index(value)` when the value occurs, else at the final
slot (the Python code writes at index `-1`, i.e. the last position). -/
def onek_encoding_unk (value : Int) (choices : List Int) : List Int :=
  (List.replicate (choices.length + 1) 0).set
    (if value ∈ choices then choices.indexOf value else choices.length) 1

/-- `atom_features`: concatenation of the eight one-hot blocks and the
is-aromatic flag (the Python code wraps this list in a float tensor). -/
def atom_features (atom : Atom) : List Int :=
  onek_encoding_unk (atom.atomicNum - 1) ATOM_FEATURES_atomic_num
  ++ onek_encoding_unk atom.degree ATOM_FEATURES_degree
  ++ onek_encoding_unk atom.formalCharge ATOM_FEATURES_formal_charge
  ++ onek_encoding_unk atom.chiralTag ATOM_FEATURES_chiral_tag
  ++ onek_encoding_unk atom.implicitValence ATOM_FEATURES_implicit_valence
  ++ onek_encoding_unk atom.numHs ATOM_FEATURES_num_Hs
  ++ onek_encoding_unk atom.hybridization ATOM_FEATURES_hybridization
  ++ onek_encoding_unk atom.numRadicalElectrons ATOM_FEATURES_num_radical_electrons
  ++ [if atom.isAromatic then 1 else 0]

/-- `bond_features`.  `bond = none` is the virtual-edge sentinel `[1] + [0]*13`;
otherwise the real-bond flag, four bond-type indicators, conjugation, ring
membership and the one-hot stereo block.  The optional topological-distance
one-hot and the raw 3D distance scalar are appended when present. -/
def bond_features (bond : Option Bond) (distance_path : Option Int) (distance_3d : Option Int) :
    List Int :=
  let fbond : List Int :=
    match bond with
    | none => 1 :: List.replicate 13 0
    | some b =>
        [0,
         if b.bondType = BondType.single then 1 else 0,
         if b.bondType = BondType.double then 1 else 0,
         if b.bondType = BondType.triple then 1 else 0,
         if b.bondType = BondType.aromatic then 1 else 0,
         if b.isConjugated then 1 else 0,
         if b.isInRing then 1 else 0]
        ++ onek_encoding_unk b.stereo ((List.range 6).map (fun n => (n : Int)))
  let fdistance_path : List Int :=
    match distance_path with
    | some d => onek_encoding_unk d ((List.range 10).map (fun n => (n : Int)))
    | none => []
  let fdistance_3d : List Int :=
    match distance_3d with
    | some d => [d]
    | none => []
  fbond ++ fdistance_path ++ fdistance_3d

/-! ## Per-molecule features (cache-miss path of `mol2graph`, lines 150–196) -/

/-- The memoized per-molecule tuple
`(mol_fatoms, mol_fbonds, mol_all_bonds, n_atoms)`. -/
structure MolFeatures where
  fatoms : List (List Int)
  fbonds : List (List Int)
  allBonds : List (Nat × Nat)
  nAtoms : Nat
deriving DecidableEq, Repr, Inhabited

/-- The ordered unordered-pair traversal `for a1 in range(n): for a2 in
range(a1+1, n)`. -/
def atomPairs (n : Nat) : List (Nat × Nat) :=
  (List.range n).flatMap (fun a1 => ((List.range n).drop (a1 + 1)).map (fun a2 => (a1, a2)))

/-- Body of the bond loop for one atom pair: skip when there is no bond and
virtual edges are off, otherwise append the two directed rows and pairs. -/
def pairStep (fl : Flags) (mol : Molecule) (molFatoms : List (List Int))
    (acc : List (Nat × Nat) × List (List Int)) (p : Nat × Nat) :
    List (Nat × Nat) × List (List Int) :=
  match mol.bond p.1 p.2, fl.virtual_edges with
  | none, false => acc
  | b, _ =>
      let distance_3d : Option Int := if fl.three_d then some (mol.dist3d p.1 p.2) else none
      let distance_path : Option Int := if fl.virtual_edges then some (mol.distPath p.1 p.2) else none
      let row1 := molFatoms.getD p.1 [] ++ bond_features b distance_path distance_3d
      let row2 := molFatoms.getD p.2 [] ++ bond_features b distance_path distance_3d
      (acc.1 ++ [(p.1, p.2), (p.2, p.1)], acc.2 ++ [row1, row2])

/-- The cache-miss path of `mol2graph` for one notation: parse (RDKit raises on
the `None` molecule when parsing fails, aborting the call), apply the
hydrogen/3D transforms, then build atom and bond features.  Also returns the
trace of toolkit calls performed, in program order. -/
def computeMol (tk : Toolkit) (fl : Flags) (smiles : String) :
    Except String (MolFeatures × List TkCall) :=
  match tk.parse smiles with
  | none => Except.error ("could not parse " ++ smiles)
  | some m0 =>
      let m1 := if fl.addHs then tk.addHs m0 else m0
      let m2 := if fl.three_d then
          (let me := tk.embed (tk.addHs m1)
           if fl.addHs then me else tk.removeHs me)
        else m1
      let trace : List TkCall :=
        [TkCall.parseCall]
        ++ (if fl.addHs then [TkCall.addHsCall] else [])
        ++ (if fl.three_d then
              [TkCall.addHsCall, TkCall.embedCall]
              ++ (if fl.addHs then [] else [TkCall.removeHsCall])
              ++ [TkCall.get3DDistanceMatrix]
            else [])
        ++ [TkCall.getDistanceMatrix]
      let n_atoms := m2.atoms.length
      let molFatoms := m2.atoms.map atom_features
      let bonds := (atomPairs n_atoms).foldl (pairStep fl m2 molFatoms) ([], [])
      Except.ok (⟨molFatoms, bonds.2, bonds.1, n_atoms⟩, trace)

/-! ## The batcher state (`mol2graph` lines 140–233) -/

/-- The module-level `SMILES_TO_FEATURES` dict, modelled as an association
list; insertions append. -/
abbrev Cache : Type := List (String × MolFeatures)

def cacheLookup (c : Cache) (s : String) : Option MolFeatures :=
  (c.find? (fun kv => kv.1 == s)).map (fun kv => kv.2)

/-- The mutable batch-assembly state of `mol2graph` (its local variables). -/
structure BatchState where
  fatoms : List (List Int)
  fbonds : List (List Int)
  in_bonds : List (List Nat)
  all_bonds : List (Int × Int)
  scope : List (Nat × Nat)
  total_atoms : Nat
deriving Repr, Inhabited

/-- Replace the element at index `i` by `f` of it (out-of-range is a no-op;
the program never goes out of range). -/
def updateAt {α : Type} : List α → Nat → (α → α) → List α
  | [], _, _ => []
  | x :: xs, 0, f => f x :: xs
  | x :: xs, n + 1, f => x :: updateAt xs n f

/-- The `for a1, a2 in mol_all_bonds` loop: offset the pair, append it to
`all_bonds` and append the new bond index to `in_bonds[a2]`. -/
def addBondStep (total_atoms : Nat) (acc : List (Int × Int) × List (List Nat))
    (p : Nat × Nat) : List (Int × Int) × List (List Nat) :=
  let a1 := p.1 + total_atoms
  let a2 := p.2 + total_atoms
  let bond_idx := acc.1.length
  (acc.1 ++ [((a1 : Int), (a2 : Int))], updateAt acc.2 a2 (fun l => l ++ [bond_idx]))

/-- Lines 198–213: extend the batch state with one molecule's memoized tuple. -/
def addMolToBatch (st : BatchState) (mf : MolFeatures) : BatchState :=
  let in_bonds0 := st.in_bonds ++ List.replicate mf.nAtoms []
  let bonds := mf.allBonds.foldl (addBondStep st.total_atoms) (st.all_bonds, in_bonds0)
  { fatoms := st.fatoms ++ mf.fatoms
    fbonds := st.fbonds ++ mf.fbonds
    in_bonds := bonds.2
    all_bonds := bonds.1
    scope := st.scope ++ [(st.total_atoms, mf.nAtoms)]
    total_atoms := st.total_atoms + mf.nAtoms }

/-- Lines 146–213 for one notation: use the cached tuple when present, else
compute, memoize and record the toolkit calls. -/
def processSmiles (tk : Toolkit) (fl : Flags)
    (acc : BatchState × Cache × List TkCall) (s : String) :
    Except String (BatchState × Cache × List TkCall) :=
  match cacheLookup acc.2.1 s with
  | some mf => Except.ok (addMolToBatch acc.1 mf, acc.2.1, acc.2.2)
  | none =>
      match computeMol tk fl s with
      | Except.error e => Except.error e
      | Except.ok (mf, tr) =>
          Except.ok (addMolToBatch acc.1 mf, acc.2.1 ++ [(s, mf)], acc.2.2 ++ tr)

/-- The `for smiles in mol_batch` loop. -/
def foldBatch (tk : Toolkit) (fl : Flags) (acc : BatchState × Cache × List TkCall) :
    List String → Except String (BatchState × Cache × List TkCall)
  | [] => Except.ok acc
  | s :: rest =>
      match processSmiles tk fl acc s with
      | Except.error e => Except.error e
      | Except.ok acc2 => foldBatch tk fl acc2 rest

/-- The all-zero padding row of width atom-fdim + bond-fdim (line 140). -/
def paddingRow (fl : Flags) : List Int :=
  List.replicate (get_atom_fdim + get_bond_fdim fl.three_d fl.virtual_edges) 0

/-- The initial local state of `mol2graph`: `fbonds = [padding]` and
`all_bonds = [(-1, -1)]` so bonds are 1-indexed. -/
def initState (fl : Flags) : BatchState :=
  { fatoms := []
    fbonds := [paddingRow fl]
    in_bonds := []
    all_bonds := [(-1, -1)]
    scope := []
    total_atoms := 0 }

/-- Python's `max` over a sequence: raises on an empty sequence. -/
def maxOf : List Nat → Except String Nat
  | [] => Except.error "max() arg is an empty sequence"
  | x :: xs => Except.ok (xs.foldl max x)

/-- Pad an index row with the sentinel index 0 to width `n`. -/
def padTo (n : Nat) (l : List Nat) : List Nat := l ++ List.replicate (n - l.length) 0

/-- The batched graph `mol2graph` returns. -/
structure BatchGraph where
  fatoms : List (List Int)
  fbonds : List (List Int)
  agraph : List (List Nat)
  bgraph : List (List Nat)
  scope : List (Nat × Nat)
deriving DecidableEq, Repr, Inhabited

/-- Lines 215–233: compute the batch-wide maximum in-degree (Python's `max`
raises on an empty sequence), then fill `agraph` (row `a` holds `in_bonds[a]`,
zero elsewhere) and `bgraph` (row `b1 ≥ 1` holds, at slot `i`, the `i`-th
incoming bond of `b1`'s source atom unless that bond starts at `b1`'s
destination, in which case the slot keeps the zero it was initialized with). -/
def assemble (st : BatchState) : Except String BatchGraph :=
  match maxOf (st.in_bonds.map List.length) with
  | Except.error e => Except.error e
  | Except.ok max_num_bonds =>
      let total_bonds := st.all_bonds.length
      let agraph := st.in_bonds.map (padTo max_num_bonds)
      let bgraph := (List.range total_bonds).map (fun b1 =>
        if b1 = 0 then List.replicate max_num_bonds 0
        else
          let xy := st.all_bonds.getD b1 (-1, -1)
          padTo max_num_bonds
            ((st.in_bonds.getD xy.1.toNat []).map (fun b2 =>
              if (st.all_bonds.getD b2 (-1, -1)).1 ≠ xy.2 then b2 else 0)))
      Except.ok ⟨st.fatoms, st.fbonds, agraph, bgraph, st.scope⟩

/-- `mol2graph`: fold the batch through the cache-aware per-molecule step, then
assemble the dense index tables.  Returns the graph, the updated memoization
cache and the trace of toolkit calls the call performed. -/
def mol2graph (tk : Toolkit) (mol_batch : List String) (fl : Flags) (cache : Cache) :
    Except String (BatchGraph × Cache × List TkCall) :=
  match foldBatch tk fl (initState fl, cache, []) mol_batch with
  | Except.error e => Except.error e
  | Except.ok (st, cache2, tr) =>
      match assemble st with
      | Except.error e => Except.error e
      | Except.ok g => Except.ok (g, cache2, tr)

/-! ## The message passing network (`MPN.forward`)

Tensors are lists of rational rows.  The activation function, the softmax (an
exp-based normalizer in the real code) and the dropout masks (random Bernoulli
scalings) are abstract function-valued parameters. -/

def dotQ (u v : List ℚ) : ℚ := (List.zipWith (fun a b => a * b) u v).sum

/-- A bias-free linear layer: one output per weight row. -/
def matVec (W : List (List ℚ)) (v : List ℚ) : List ℚ := W.map (fun row => dotQ row v)

/-- A linear layer with bias. -/
def affineVec (W : List (List ℚ)) (b : List ℚ) (v : List ℚ) : List ℚ :=
  List.zipWith (fun a c => a + c) (matVec W v) b

def vecAdd (u v : List ℚ) : List ℚ := List.zipWith (fun a b => a + b) u v

def scaleVec (c : ℚ) (v : List ℚ) : List ℚ := v.map (fun x => c * x)

/-- `sum(dim=1)` over a gathered list of `hidden`-wide rows. -/
def sumVecs (hidden : Nat) (l : List (List ℚ)) : List ℚ :=
  l.foldl vecAdd (List.replicate hidden 0)

def actVec (act : ℚ → ℚ) (v : List ℚ) : List ℚ := v.map act

/-- Elementwise dropout as multiplication by a mask value per coordinate. -/
def dropoutVec (mask : Nat → ℚ) (v : List ℚ) : List ℚ :=
  v.mapIdx (fun i x => mask i * x)

/-- `index_select_ND(message, 0, idxs)` for one index row: gather message rows
(index 0 is the sentinel row). -/
def gatherRows (message : List (List ℚ)) (idxs : List Nat) : List (List ℚ) :=
  idxs.map (fun i => message.getD i [])

/-- The `MPN` module: sizes, option flags, weights, and the abstracted
activation / softmax / dropout-mask functions.  `W_i`, `W_h`, `W_ma1` are
bias-free as in the source; `W_o`, `W_b` carry biases `b_o`, `b_b`. -/
structure MPN where
  hidden_size : Nat
  depth : Nat
  attention : Bool
  message_attention : Bool
  W_i : List (List ℚ)
  W_h : List (List ℚ)
  W_o : List (List ℚ)
  b_o : List ℚ
  W_a : List (List ℚ)
  W_b : List (List ℚ)
  b_b : List ℚ
  W_ma1 : List ℚ
  act_func : ℚ → ℚ
  softmaxFn : List ℚ → List ℚ
  dropMaskLoop : Nat → Nat → Nat → ℚ
  dropMaskAtom : Nat → Nat → ℚ
  dropMaskAtt : Nat → Nat → ℚ

/-- One iteration of the message-passing loop (lines 333–340): gather each
bond's contributing messages through `bgraph`, optionally scale them by the
softmax of their `W_ma1` scores, sum, apply `W_h`, add `binput`, activate,
dropout. -/
def mpnRound (cfg : MPN) (bgraph : List (List Nat)) (binput : List (List ℚ))
    (t : Nat) (message : List (List ℚ)) : List (List ℚ) :=
  (binput.zip bgraph).mapIdx (fun b p =>
    let nei := gatherRows message p.2
    let nei2 := if cfg.message_attention then
        List.zipWith scaleVec (cfg.softmaxFn (nei.map (dotQ cfg.W_ma1))) nei
      else nei
    let h := matVec cfg.W_h (sumVecs cfg.hidden_size nei2)
    dropoutVec (cfg.dropMaskLoop t b) (actVec cfg.act_func (vecAdd p.1 h)))

/-- The message tensor after `t` rounds: round 0 is the initial
`activation(W_i(fbonds))`. -/
def messageAfter (cfg : MPN) (bgraph : List (List Nat)) (binput : List (List ℚ)) :
    Nat → List (List ℚ)
  | 0 => binput.map (actVec cfg.act_func)
  | t + 1 => mpnRound cfg bgraph binput t (messageAfter cfg bgraph binput t)

/-- `W_i(fbonds)` with the integral feature rows cast to rationals. -/
def binputOf (cfg : MPN) (g : BatchGraph) : List (List ℚ) :=
  g.fbonds.map (fun r => matVec cfg.W_i (r.map (fun z => (Int.cast z : ℚ))))

/-- Lines 342–346: gather each atom's incoming messages through `agraph`, sum,
concatenate with the atom's own features, apply `W_o`, activate, dropout. -/
def atomHiddens (cfg : MPN) (fatomsQ : List (List ℚ)) (agraph : List (List Nat))
    (message : List (List ℚ)) : List (List ℚ) :=
  (fatomsQ.zip agraph).mapIdx (fun a p =>
    let nei := sumVecs cfg.hidden_size (gatherRows message p.2)
    dropoutVec (cfg.dropMaskAtom a) (actVec cfg.act_func (affineVec cfg.W_o cfg.b_o (p.1 ++ nei))))

/-- Lines 349–363 for one scope entry: slice the molecule's atom hiddens,
optionally add the self-attention block, then mean-pool. -/
def poolMolecule (cfg : MPN) (hiddens : List (List ℚ)) (st le : Nat) : List ℚ :=
  let cur := (hiddens.drop st).take le
  let molRows := if cfg.attention then
      let attW := cur.map (fun ci => cfg.softmaxFn (cur.map (fun cj => dotQ (matVec cfg.W_a ci) cj)))
      let attH := attW.map (fun wrow => sumVecs cfg.hidden_size (List.zipWith scaleVec wrow cur))
      let attH2 := attH.map (fun r => actVec cfg.act_func (affineVec cfg.W_b cfg.b_b r))
      let attH3 := attH2.mapIdx (fun i r => dropoutVec (cfg.dropMaskAtt i) r)
      List.zipWith vecAdd cur attH3
    else cur
  (sumVecs cfg.hidden_size molRows).map (fun x => x / (le : ℚ))

/-- The aggregation-and-pooling tail of `MPN.forward` (lines 342–365), applied
to a given message tensor. -/
def aggregateAndPool (cfg : MPN) (g : BatchGraph) (message : List (List ℚ)) :
    List (List ℚ) :=
  let fatomsQ := g.fatoms.map (fun r => r.map (fun z => (Int.cast z : ℚ)))
  let hiddens := atomHiddens cfg fatomsQ g.agraph message
  g.scope.map (fun p => poolMolecule cfg hiddens p.1 p.2)

/-- `MPN.forward`: initial projection, `depth - 1` message-passing rounds, then
atom aggregation and per-molecule pooling. -/
def MPN.forward (cfg : MPN) (g : BatchGraph) : List (List ℚ) :=
  let binput := binputOf cfg g
  let message := messageAfter cfg g.bgraph binput (cfg.depth - 1)
  aggregateAndPool cfg g message

/-- Modelled from the spec: "Message passing at depth=1 reduces to
`activation(W_i(fbonds))` fed directly into the final atom-aggregation step
with no intermediate rounds" — the forward pass with the initial message fed
straight into aggregation and pooling. -/
def MPN.forwardDepthOneSpec (cfg : MPN) (g : BatchGraph) : List (List ℚ) :=
  let binput := binputOf cfg g
  let message := binput.map (actVec cfg.act_func)
  aggregateAndPool cfg g message

/-- A row whose entries are all zero (the inert sentinel property). -/
def allZero (v : List ℚ) : Prop := ∀ x ∈ v, x = 0

instance (v : List ℚ) : Decidable (allZero v) := by
  unfold allZero
  infer_instance

/-! ## A small concrete toolkit for witnesses -/

/-- A carbon-like atom with in-range properties. -/
def atomC : Atom :=
  { atomicNum := 6, degree := 1, formalCharge := 0, chiralTag := 0,
    implicitValence := 3, numHs := 3, hybridization := 4,
    numRadicalElectrons := 0, isAromatic := false }

/-- A one-atom molecule for the notation "C". -/
def molC : Molecule :=
  { atoms := [atomC]
    bond := fun _ _ => none
    distPath := fun _ _ => 0
    dist3d := fun _ _ => 0 }

def bondCC : Bond := { bondType := BondType.single, isConjugated := false, isInRing := false, stereo := 0 }

/-- A two-atom single-bond molecule for the notation "CC". -/
def molCC : Molecule :=
  { atoms := [atomC, atomC]
    bond := fun a b => if (a = 0 ∧ b = 1) ∨ (a = 1 ∧ b = 0) then some bondCC else none
    distPath := fun a b => if a = b then 0 else 1
    dist3d := fun _ _ => 1 }

/-- A three-atom chain for the notation "CCC". -/
def molCCC : Molecule :=
  { atoms := [atomC, atomC, atomC]
    bond := fun a b =>
      if (a = 0 ∧ b = 1) ∨ (a = 1 ∧ b = 0) ∨ (a = 1 ∧ b = 2) ∨ (a = 2 ∧ b = 1)
      then some bondCC else none
    distPath := fun a b => if a = b then 0 else if a + 2 = b ∨ b + 2 = a then 2 else 1
    dist3d := fun _ _ => 1 }

/-- A concrete toolkit parsing the three toy notations and failing on all
others; the hydrogen and embedding transforms are identities. -/
def toyTk : Toolkit :=
  { parse := fun s => if s = "C" then some molC else if s = "CC" then some molCC
      else if s = "CCC" then some molCCC else none
    addHs := id
    embed := id
    removeHs := id }

/-- Flags with every mode off. -/
def flagsOff : Flags := { addHs := false, three_d := false, virtual_edges := false }

/-- Flags with virtual edges on. -/
def flagsVirt : Flags := { addHs := false, three_d := false, virtual_edges := true }

/-! ## Spec-side predicates and concrete instances used by the theorems -/

/-- `(computeMol tk fl s).map fst`: the per-molecule tuple a notation
determines under fixed flags. -/
def molFeats (tk : Toolkit) (fl : Flags) (s : String) : Except String MolFeatures :=
  (computeMol tk fl s).map (fun r => r.1)

/-- Every cache entry is the tuple its key computes under the given flags
(the only way entries arise in the program). -/
def Consistent (tk : Toolkit) (fl : Flags) (c : Cache) : Prop :=
  ∀ kv ∈ c, ∃ tr, computeMol tk fl kv.1 = Except.ok (kv.2, tr)

/-- Every cached key parses (cache entries are only written after a
successful parse). -/
def CacheParses (tk : Toolkit) (c : Cache) : Prop :=
  ∀ kv ∈ c, (tk.parse kv.1).isSome = true

/-- A per-molecule tuple whose directed pairs index its own atoms. -/
def MFBounded (mf : MolFeatures) : Prop :=
  ∀ p ∈ mf.allBonds, p.1 < mf.nAtoms ∧ p.2 < mf.nAtoms

/-- Every cache entry indexes its own atoms (true of all entries the program
writes). -/
def CacheBounded (c : Cache) : Prop := ∀ kv ∈ c, MFBounded kv.2

/-- The destination atom of directed bond `b` in an `all_bonds` table. -/
def destOf (ab : List (Int × Int)) (b : Nat) : Int := (ab.getD b (-1, -1)).2

/-- The source atom of directed bond `b` in an `all_bonds` table. -/
def srcOf (ab : List (Int × Int)) (b : Nat) : Int := (ab.getD b (-1, -1)).1

/-- The `in_bonds` table determined by an `all_bonds` table: each atom's list
of incoming directed bonds in index order. -/
def StInv (ab : List (Int × Int)) (ib : List (List Nat)) : Prop :=
  1 ≤ ab.length ∧
  ab.getD 0 (-1, -1) = (-1, -1) ∧
  (∀ b, 1 ≤ b → b < ab.length →
    0 ≤ srcOf ab b ∧ (srcOf ab b).toNat < ib.length ∧
    0 ≤ destOf ab b ∧ (destOf ab b).toNat < ib.length) ∧
  (∀ a : Nat, ib.getD a [] = (List.range ab.length).filter (fun b => destOf ab b = (a : Int)))

/-- Sequential evaluation of `molFeats` over a batch. -/
def molFeatsList (tk : Toolkit) (fl : Flags) : List String → Except String (List MolFeatures)
  | [] => Except.ok []
  | s :: rest =>
      match computeMol tk fl s, molFeatsList tk fl rest with
      | Except.ok (mf, _), Except.ok mfs => Except.ok (mf :: mfs)
      | Except.error e, _ => Except.error e
      | Except.ok _, Except.error e => Except.error e

/-- The scope table of a sequence of molecules starting at atom offset `t`. -/
def scopesFrom (t : Nat) : List MolFeatures → List (Nat × Nat)
  | [] => []
  | mf :: rest => (t, mf.nAtoms) :: scopesFrom (t + mf.nAtoms) rest

/-- Rational ReLU, used to instantiate the abstract activation in witnesses. -/
def reluQ (x : ℚ) : ℚ := max x 0

/-- A tiny concrete `MPN` configuration with hidden size 1 for witnesses. -/
def cfgW (depth : Nat) (mattn : Bool) (attn : Bool) : MPN :=
  { hidden_size := 1, depth := depth, attention := attn, message_attention := mattn,
    W_i := [List.replicate (get_atom_fdim + get_bond_fdim false false) 1],
    W_h := [[1]],
    W_o := [List.replicate (get_atom_fdim + 1) 1], b_o := [0],
    W_a := [[1]], W_b := [[1]], b_b := [0],
    W_ma1 := [1],
    act_func := reluQ,
    softmaxFn := fun l => l.map (fun _ => 1),
    dropMaskLoop := fun _ _ _ => 1, dropMaskAtom := fun _ _ => 1,
    dropMaskAtt := fun _ _ => 1 }

/-- A tiny concrete batched graph for the depth-1 witness. -/
def c7g : BatchGraph :=
  { fatoms := [[1]], fbonds := [List.replicate (get_atom_fdim + get_bond_fdim false false) 0],
    agraph := [[0]], bgraph := [[0]], scope := [(0, 1)] }

/-- Concrete run of the cache-miss path used by the C9 witness. -/
def c9res : MolFeatures × List TkCall :=
  match computeMol toyTk flagsVirt "CCC" with
  | Except.ok r => r
  | Except.error _ => default

/-- Concrete first `mol2graph` call used by the C1 witness. -/
def c1Out : BatchGraph × Cache × List TkCall :=
  match mol2graph toyTk ["CC"] flagsOff [] with
  | Except.ok r => r
  | Except.error _ => default

/-- Concrete batch call used by the C2 witness. -/
def c2Out : BatchGraph × Cache × List TkCall :=
  match mol2graph toyTk ["C", "CC"] flagsOff [] with
  | Except.ok r => r
  | Except.error _ => default

/-- Concrete singleton call used by the C2 witness. -/
def c2OutS : BatchGraph × Cache × List TkCall :=
  match mol2graph toyTk ["CC"] flagsOff [] with
  | Except.ok r => r
  | Except.error _ => default

/-- Concrete batch fold used by the C3 witness. -/
def c3St : BatchState × Cache × List TkCall :=
  match foldBatch toyTk flagsOff (initState flagsOff, [], []) ["C", "CC"] with
  | Except.ok r => r
  | Except.error _ => default

/-- Concrete assembled graph used by the C3 witness. -/
def c3G : BatchGraph :=
  match assemble c3St.1 with
  | Except.ok g => g
  | Except.error _ => default

/-- Concrete batch-wide maximum in-degree used by the C3 witness. -/
def c3M : Nat :=
  match maxOf (c3St.1.in_bonds.map List.length) with
  | Except.ok m => m
  | Except.error _ => 0

/-- Concrete `mol2graph` call used by the C4 witness. -/
def c4Out : BatchGraph × Cache × List TkCall :=
  match mol2graph toyTk ["CC"] flagsOff [] with
  | Except.ok r => r
  | Except.error _ => default

/-! ## Shared list lemmas -/

lemma getD_append_lt {α : Type} (l l2 : List α) (d : α) (i : Nat) (h : i < l.length) :
    (l ++ l2).getD i d = l.getD i d := by
  induction l generalizing i with
  | nil => simp at h
  | cons x xs ih =>
      cases i with
      | zero => rfl
      | succ j => exact ih j (by simpa using h)

lemma getD_append_ge {α : Type} (l l2 : List α) (d : α) (i : Nat) (h : l.length ≤ i) :
    (l ++ l2).getD i d = l2.getD (i - l.length) d := by
  induction l generalizing i with
  | nil => simp
  | cons x xs ih =>
      cases i with
      | zero => simp at h
      | succ j => simpa using ih j (by simpa using h)

lemma getD_map_lt {α β : Type} (f : α → β) (l : List α) (d : β) (d2 : α) (i : Nat)
    (h : i < l.length) : (l.map f).getD i d = f (l.getD i d2) := by
  induction l generalizing i with
  | nil => simp at h
  | cons x xs ih =>
      cases i with
      | zero => rfl
      | succ j => exact ih j (by simpa using h)

lemma getD_replicate {α : Type} (n : Nat) (a d : α) (i : Nat) :
    (List.replicate n a).getD i d = if i < n then a else d := by
  induction n generalizing i with
  | zero => simp
  | succ m ih =>
      cases i with
      | zero => simp [List.replicate_succ]
      | succ j => simpa [List.replicate_succ, Nat.succ_lt_succ_iff] using ih j

lemma updateAt_length {α : Type} (l : List α) (i : Nat) (f : α → α) :
    (updateAt l i f).length = l.length := by
  induction l generalizing i with
  | nil => rfl
  | cons x xs ih =>
      cases i with
      | zero => rfl
      | succ j => simpa [updateAt] using ih j

lemma getD_updateAt_self {α : Type} (l : List α) (i : Nat) (f : α → α) (d : α)
    (h : i < l.length) : (updateAt l i f).getD i d = f (l.getD i d) := by
  induction l generalizing i with
  | nil => simp at h
  | cons x xs ih =>
      cases i with
      | zero => rfl
      | succ j => exact ih j (by simpa using h)

lemma getD_updateAt_ne {α : Type} (l : List α) (i j : Nat) (f : α → α) (d : α)
    (h : i ≠ j) : (updateAt l i f).getD j d = l.getD j d := by
  induction l generalizing i j with
  | nil => rfl
  | cons x xs ih =>
      cases i with
      | zero =>
          cases j with
          | zero => exact absurd rfl h
          | succ m => rfl
      | succ n =>
          cases j with
          | zero => rfl
          | succ m => exact ih n m (fun hc => h (by simpa using hc))

/-! ## One-hot encoder lemmas -/

lemma onek_length (v : Int) (C : List Int) :
    (onek_encoding_unk v C).length = C.length + 1 := by
  simp [onek_encoding_unk]

lemma set_replicate_one (k n : Nat) (h : k ≤ n) :
    (List.replicate (n + 1) (0 : Int)).set k 1 =
      List.replicate k 0 ++ 1 :: List.replicate (n - k) 0 := by
  induction k generalizing n with
  | zero => simp [List.replicate_succ]
  | succ m ih =>
      cases n with
      | zero => simp at h
      | succ p =>
          have hm : m ≤ p := Nat.succ_le_succ_iff.mp h
          calc (List.replicate (p + 1 + 1) (0 : Int)).set (m + 1) 1
              = 0 :: (List.replicate (p + 1) (0 : Int)).set m 1 := by
                simp [List.replicate_succ]
            _ = 0 :: (List.replicate m 0 ++ 1 :: List.replicate (p - m) 0) := by rw [ih p hm]
            _ = List.replicate (m + 1) 0 ++ 1 :: List.replicate (p + 1 - (m + 1)) 0 := by
                simp [List.replicate_succ, Nat.succ_sub_succ]

/-- C5. `onek_encoding_unk(v, C)` is a list of length `len(C) + 1` that is zero
except for a single 1 located at `C.index(v)` when `v ∈ C` and at the final
overflow slot otherwise. -/
theorem c5_onek_encoding_unk_onehot (v : Int) (C : List Int) :
    (onek_encoding_unk v C).length = C.length + 1 ∧
    onek_encoding_unk v C =
      List.replicate (if v ∈ C then C.indexOf v else C.length) 0 ++
        1 :: List.replicate (C.length - (if v ∈ C then C.indexOf v else C.length)) 0 ∧
    (onek_encoding_unk v C).count 1 = 1 := by
  have hle : (if v ∈ C then C.indexOf v else C.length) ≤ C.length := by
    by_cases hv : v ∈ C
    · simp only [hv, if_true]
      exact Nat.le_of_lt (List.indexOf_lt_length.mpr hv)
    · simp [hv]
  have heq : onek_encoding_unk v C =
      List.replicate (if v ∈ C then C.indexOf v else C.length) 0 ++
        1 :: List.replicate (C.length - (if v ∈ C then C.indexOf v else C.length)) 0 := by
    unfold onek_encoding_unk
    exact set_replicate_one _ _ hle
  refine ⟨onek_length v C, heq, ?_⟩
  rw [heq]
  simp [List.count_append, List.count_cons, List.count_replicate]

/-- C6. `atom_features` always returns a vector of length exactly `ATOM_FDIM`,
for every atom regardless of its property values. -/
theorem c6_atom_features_length (a : Atom) : (atom_features a).length = ATOM_FDIM := by
  simp only [atom_features, List.length_append, onek_length, List.length_cons,
    List.length_nil]
  decide

/-- C10. `mol2graph` on the empty batch always fails (Python's `max` over the
empty `in_bonds` sequence raises) and never returns a degenerate graph. -/
theorem c10_empty_batch_errors (tk : Toolkit) (fl : Flags) (c : Cache) :
    mol2graph tk [] fl c = Except.error "max() arg is an empty sequence" := rfl

/-- C7. When `depth = 1` the forward pass performs no message-passing rounds:
it equals feeding `activation(W_i(fbonds))` directly into the final atom
aggregation and per-molecule pooling. -/
theorem c7_depth_one_reduces (cfg : MPN) (g : BatchGraph) (h : cfg.depth = 1) :
    MPN.forward cfg g = MPN.forwardDepthOneSpec cfg g := by
  unfold MPN.forward MPN.forwardDepthOneSpec
  rw [h]
  rfl

theorem c7_witness :
    (cfgW 1 false true).depth = 1 ∧
    MPN.forward (cfgW 1 false true) c7g = MPN.forwardDepthOneSpec (cfgW 1 false true) c7g :=
  ⟨rfl, c7_depth_one_reduces (cfgW 1 false true) c7g rfl⟩

/-- C9 (counterexample). With `virtual_edges = false` (all flags off), a cache
miss still performs exactly one `GetDistanceMatrix` toolkit call: the claim
that the computation is skipped when `virtual_edges` is false is wrong. -/
theorem c9_counterexample :
    flagsOff.virtual_edges = false ∧
    (computeMol toyTk flagsOff "CC").map (fun r => r.2.count TkCall.getDistanceMatrix) =
      Except.ok 1 := by
  constructor
  · rfl
  · rfl

/-- C9 (amended). On every cache miss that succeeds, `mol2graph`'s per-molecule
computation performs exactly one topological-distance-matrix toolkit call,
regardless of `virtual_edges` (the call at line 167 is unconditional; its
result is merely unused when `virtual_edges` is false). -/
theorem c9_dist_matrix_unconditional (tk : Toolkit) (fl : Flags) (s : String)
    (mf : MolFeatures) (tr : List TkCall)
    (h : computeMol tk fl s = Except.ok (mf, tr)) :
    tr.count TkCall.getDistanceMatrix = 1 := by
  unfold computeMol at h
  cases hp : tk.parse s with
  | none => rw [hp] at h; exact absurd h (by simp)
  | some m =>
      rw [hp] at h
      simp only [Except.ok.injEq, Prod.mk.injEq] at h
      have htr := h.2
      subst htr
      cases hA : fl.addHs <;> cases hT : fl.three_d <;>
        simp [List.count_append, List.count_cons, List.count_nil]

theorem c9_witness : c9res.2.count TkCall.getDistanceMatrix = 1 :=
  c9_dist_matrix_unconditional toyTk flagsVirt "CCC" c9res.1 c9res.2 rfl

/-! ## Zero-row preservation lemmas for the MPN -/

lemma allZero_nil : allZero [] := by
  intro x hx
  cases hx

lemma allZero_replicate (n : Nat) : allZero (List.replicate n 0) := by
  intro x hx
  exact List.eq_of_mem_replicate hx

lemma dotQ_allZero (u v : List ℚ) (hv : allZero v) : dotQ u v = 0 := by
  induction u generalizing v with
  | nil => simp [dotQ]
  | cons a u ih =>
      cases v with
      | nil => simp [dotQ]
      | cons b v =>
          have hb : b = 0 := hv b (by simp)
          have hv2 : allZero v := fun x hx => hv x (by simp [hx])
          simp only [dotQ, List.zipWith_cons_cons, List.sum_cons, hb, mul_zero, zero_add]
          exact ih v hv2

lemma matVec_allZero (W : List (List ℚ)) (v : List ℚ) (hv : allZero v) :
    allZero (matVec W v) := by
  intro x hx
  obtain ⟨row, _, hrow⟩ := List.mem_map.mp hx
  rw [← hrow]
  exact dotQ_allZero row v hv

lemma vecAdd_allZero (u v : List ℚ) (hu : allZero u) (hv : allZero v) :
    allZero (vecAdd u v) := by
  induction u generalizing v with
  | nil => intro x hx; simp [vecAdd] at hx
  | cons a u ih =>
      cases v with
      | nil => intro x hx; simp [vecAdd] at hx
      | cons b v =>
          intro x hx
          simp only [vecAdd, List.zipWith_cons_cons, List.mem_cons] at hx
          rcases hx with hx | hx
          · rw [hx, hu a (by simp), hv b (by simp), add_zero]
          · exact ih v (fun y hy => hu y (by simp [hy])) (fun y hy => hv y (by simp [hy])) x hx

lemma scaleVec_allZero (c : ℚ) (v : List ℚ) (hv : allZero v) : allZero (scaleVec c v) := by
  intro x hx
  obtain ⟨y, hy, hxy⟩ := List.mem_map.mp hx
  rw [← hxy, hv y hy, mul_zero]

lemma foldl_vecAdd_allZero (l : List (List ℚ)) (init : List ℚ) (hi : allZero init)
    (h : ∀ v ∈ l, allZero v) : allZero (l.foldl vecAdd init) := by
  induction l generalizing init with
  | nil => exact hi
  | cons v l ih =>
      simp only [List.foldl_cons]
      exact ih (vecAdd init v) (vecAdd_allZero init v hi (h v (by simp)))
        (fun w hw => h w (by simp [hw]))

lemma sumVecs_allZero (hidden : Nat) (l : List (List ℚ)) (h : ∀ v ∈ l, allZero v) :
    allZero (sumVecs hidden l) :=
  foldl_vecAdd_allZero l _ (allZero_replicate hidden) h

lemma actVec_allZero (act : ℚ → ℚ) (v : List ℚ) (ha : act 0 = 0) (hv : allZero v) :
    allZero (actVec act v) := by
  intro x hx
  obtain ⟨y, hy, hxy⟩ := List.mem_map.mp hx
  rw [← hxy, hv y hy, ha]

lemma dropoutVec_allZero (m : Nat → ℚ) (v : List ℚ) (hv : allZero v) :
    allZero (dropoutVec m v) := by
  unfold dropoutVec
  induction v generalizing m with
  | nil => intro x hx; simp at hx
  | cons a v ih =>
      intro x hx
      rw [List.mapIdx_cons] at hx
      rcases List.mem_cons.mp hx with hx | hx
      · rw [hx, hv a (by simp), mul_zero]
      · exact ih (fun i => m (i + 1)) (fun y hy => hv y (by simp [hy])) x hx

lemma zipWith_scaleVec_allZero (w : List ℚ) (nei : List (List ℚ))
    (h : ∀ v ∈ nei, allZero v) : ∀ v ∈ List.zipWith scaleVec w nei, allZero v := by
  induction w generalizing nei with
  | nil => intro v hv; simp at hv
  | cons c w ih =>
      cases nei with
      | nil => intro v hv; simp at hv
      | cons u nei =>
          intro v hv
          simp only [List.zipWith_cons_cons, List.mem_cons] at hv
          rcases hv with hv | hv
          · rw [hv]; exact scaleVec_allZero c u (h u (by simp))
          · exact ih nei (fun y hy => h y (by simp [hy])) v hv

lemma gatherRows_allZero (msg : List (List ℚ)) (idxs : List Nat)
    (h0 : allZero (msg.getD 0 [])) (hi : ∀ i ∈ idxs, i = 0) :
    ∀ v ∈ gatherRows msg idxs, allZero v := by
  intro v hv
  obtain ⟨i, him, hiv⟩ := List.mem_map.mp hv
  rw [← hiv, hi i him]
  exact h0

lemma mpnRound_head_allZero (cfg : MPN) (bg0 : List Nat) (bgs : List (List Nat))
    (bin0 : List ℚ) (bins : List (List ℚ)) (t : Nat) (msg : List (List ℚ))
    (hact : cfg.act_func 0 = 0) (hbin0 : allZero bin0) (hbg0 : ∀ i ∈ bg0, i = 0)
    (hmsg : allZero (msg.getD 0 [])) :
    allZero ((mpnRound cfg (bg0 :: bgs) (bin0 :: bins) t msg).getD 0 []) := by
  unfold mpnRound
  rw [List.zip_cons_cons, List.mapIdx_cons, List.getD_cons_zero]
  have hnei : ∀ v ∈ gatherRows msg bg0, allZero v := gatherRows_allZero msg bg0 hmsg hbg0
  apply dropoutVec_allZero
  apply actVec_allZero _ _ hact
  apply vecAdd_allZero _ _ hbin0
  apply matVec_allZero
  apply sumVecs_allZero
  by_cases hma : cfg.message_attention
  · simp only [hma, if_true]
    exact zipWith_scaleVec_allZero _ _ hnei
  · simp only [hma, if_false]
    exact hnei

lemma messageAfter_head_allZero (cfg : MPN) (bgraph : List (List Nat))
    (binput : List (List ℚ)) (hact : cfg.act_func 0 = 0)
    (hbin : allZero (binput.getD 0 []))
    (hbg : ∀ i ∈ bgraph.getD 0 [], i = 0) :
    ∀ t, allZero ((messageAfter cfg bgraph binput t).getD 0 []) := by
  intro t
  induction t with
  | zero =>
      cases binput with
      | nil => exact allZero_nil
      | cons b0 bs =>
          simp only [messageAfter, List.map_cons, List.getD_cons_zero]
          exact actVec_allZero _ _ hact (by simpa using hbin)
  | succ t ih =>
      cases binput with
      | nil =>
          simp only [messageAfter, mpnRound, List.zip_nil_left, List.mapIdx_nil]
          exact allZero_nil
      | cons b0 bs =>
          cases bgraph with
          | nil =>
              simp only [messageAfter, mpnRound, List.zip_nil_right, List.mapIdx_nil]
              exact allZero_nil
          | cons g0 gs =>
              exact mpnRound_head_allZero cfg g0 gs b0 bs t _ hact
                (by simpa using hbin) (by simpa using hbg) ih

/-! ## Batch facts feeding the sentinel claim -/

lemma processSmiles_state (tk : Toolkit) (fl : Flags) (acc : BatchState × Cache × List TkCall)
    (s : String) (res : BatchState × Cache × List TkCall)
    (h : processSmiles tk fl acc s = Except.ok res) :
    ∃ mf, res.1 = addMolToBatch acc.1 mf := by
  unfold processSmiles at h
  cases hl : cacheLookup acc.2.1 s with
  | some mf =>
      rw [hl] at h
      simp only [Except.ok.injEq] at h
      exact ⟨mf, by rw [← h]⟩
  | none =>
      rw [hl] at h
      cases hc : computeMol tk fl s with
      | error e => rw [hc] at h; exact absurd h (by simp)
      | ok p =>
          rw [hc] at h
          simp only [Except.ok.injEq] at h
          exact ⟨p.1, by rw [← h]⟩

lemma foldBatch_fbonds_ext (tk : Toolkit) (fl : Flags) :
    ∀ (B : List String) (acc res : BatchState × Cache × List TkCall),
      foldBatch tk fl acc B = Except.ok res →
      ∃ ext, res.1.fbonds = acc.1.fbonds ++ ext := by
  intro B
  induction B with
  | nil =>
      intro acc res h
      simp only [foldBatch, Except.ok.injEq] at h
      exact ⟨[], by rw [← h]; simp⟩
  | cons s rest ih =>
      intro acc res h
      unfold foldBatch at h
      cases hp : processSmiles tk fl acc s with
      | error e => rw [hp] at h; exact absurd h (by simp)
      | ok acc2 =>
          rw [hp] at h
          obtain ⟨ext2, hext2⟩ := ih acc2 res h
          obtain ⟨mf, hmf⟩ := processSmiles_state tk fl acc s acc2 hp
          refine ⟨mf.fbonds ++ ext2, ?_⟩
          rw [hext2, hmf]
          simp [addMolToBatch]

/-- C4. Sentinel inertness: row 0 of `fbonds` is the all-zero padding row, and
given that the supported activation maps 0 to 0 (`W_i`/`W_h` are bias-free in
the model), row 0 of the message tensor is the zero vector after the initial
projection and after each of the `depth - 1` message-passing rounds, with or
without message attention, so gathers through sentinel index 0 contribute
nothing. -/
theorem c4_sentinel_inert (tk : Toolkit) (B : List String) (fl : Flags) (c : Cache)
    (g : BatchGraph) (c2 : Cache) (tr : List TkCall) (cfg : MPN)
    (hok : mol2graph tk B fl c = Except.ok (g, c2, tr))
    (hact : cfg.act_func 0 = 0) :
    g.fbonds.getD 0 [] = paddingRow fl ∧
    ∀ t, t ≤ cfg.depth - 1 →
      allZero ((messageAfter cfg g.bgraph (binputOf cfg g) t).getD 0 []) := by
  unfold mol2graph at hok
  cases hf : foldBatch tk fl (initState fl, c, []) B with
  | error e => rw [hf] at hok; exact absurd hok (by simp)
  | ok res =>
      rw [hf] at hok
      obtain ⟨st, cc, tt⟩ := res
      cases ha : assemble st with
      | error e => simp only [ha] at hok; exact absurd hok (by simp)
      | ok g0 =>
          simp only [ha, Except.ok.injEq, Prod.mk.injEq] at hok
          obtain ⟨hg, -, -⟩ := hok
          subst hg
          obtain ⟨ext, hfb⟩ := foldBatch_fbonds_ext tk fl B _ _ hf
          unfold assemble at ha
          cases hm : maxOf (st.in_bonds.map List.length) with
          | error e => rw [hm] at ha; exact absurd ha (by simp)
          | ok M =>
              rw [hm] at ha
              simp only [Except.ok.injEq] at ha
              have hfbonds : g0.fbonds = paddingRow fl :: ext := by
                rw [← ha]
                simpa [initState] using hfb
              have hhead : g0.fbonds.getD 0 [] = paddingRow fl := by
                rw [hfbonds]; rfl
              refine ⟨hhead, ?_⟩
              have hpadcast : (paddingRow fl).map (fun z => (Int.cast z : ℚ)) =
                  List.replicate (get_atom_fdim + get_bond_fdim fl.three_d fl.virtual_edges)
                    (0 : ℚ) := by
                unfold paddingRow
                rw [List.map_replicate]
                norm_num
              have hbin : allZero ((binputOf cfg g0).getD 0 []) := by
                unfold binputOf
                rw [hfbonds, List.map_cons, List.getD_cons_zero, hpadcast]
                exact matVec_allZero _ _ (allZero_replicate _)
              have hbg : ∀ i ∈ g0.bgraph.getD 0 [], i = 0 := by
                have hbgdef : g0.bgraph = (List.range st.all_bonds.length).map (fun b1 =>
                    if b1 = 0 then List.replicate M 0
                    else
                      let xy := st.all_bonds.getD b1 (-1, -1)
                      padTo M ((st.in_bonds.getD xy.1.toNat []).map (fun b2 =>
                        if (st.all_bonds.getD b2 (-1, -1)).1 ≠ xy.2 then b2 else 0))) := by
                  rw [← ha]
                cases htot : st.all_bonds.length with
                | zero =>
                    rw [hbgdef, htot]
                    intro i hi
                    simp at hi
                | succ k =>
                    rw [hbgdef, htot, List.range_succ_eq_map, List.map_cons,
                      List.getD_cons_zero]
                    intro i hi
                    simp only [if_pos rfl] at hi
                    exact List.eq_of_mem_replicate hi
              intro t _
              exact messageAfter_head_allZero cfg g0.bgraph (binputOf cfg g0) hact hbin hbg t

theorem c4_witness :
    reluQ 0 = 0 ∧
    c4Out.1.fbonds.getD 0 [] = paddingRow flagsOff ∧
    allZero ((messageAfter (cfgW 3 true false) c4Out.1.bgraph
      (binputOf (cfgW 3 true false) c4Out.1) 2).getD 0 []) := by
  have h := c4_sentinel_inert toyTk ["CC"] flagsOff [] c4Out.1 c4Out.2.1 c4Out.2.2
    (cfgW 3 true false) rfl (by decide)
  exact ⟨by decide, h.1, h.2 2 (by decide)⟩

/-! ## Cache lemmas -/

lemma cacheLookup_none_find? (c : Cache) (s : String) (h : cacheLookup c s = none) :
    c.find? (fun kv => kv.1 == s) = none := by
  unfold cacheLookup at h
  cases hf : c.find? (fun kv => kv.1 == s) with
  | none => rfl
  | some kv => rw [hf] at h; simp at h

lemma cacheLookup_append_some (c ext : Cache) (s : String) (mf : MolFeatures)
    (h : cacheLookup c s = some mf) : cacheLookup (c ++ ext) s = some mf := by
  unfold cacheLookup at h ⊢
  cases hf : c.find? (fun kv => kv.1 == s) with
  | none => rw [hf] at h; simp at h
  | some kv =>
      rw [hf] at h
      rw [List.find?_append, hf]
      simpa using h

lemma cacheLookup_append_single_ne (c : Cache) (t : String) (mft : MolFeatures)
    (s : String) (h : t ≠ s) : cacheLookup (c ++ [(t, mft)]) s = cacheLookup c s := by
  unfold cacheLookup
  rw [List.find?_append]
  have hts : (t == s) = false := beq_eq_false_iff_ne.mpr h
  have : List.find? (fun kv => kv.1 == s) [(t, mft)] = none := by
    simp [List.find?, hts]
  rw [this]
  cases c.find? (fun kv => kv.1 == s) <;> rfl

lemma cacheLookup_insert_self (c : Cache) (s : String) (mf : MolFeatures)
    (h : cacheLookup c s = none) : cacheLookup (c ++ [(s, mf)]) s = some mf := by
  unfold cacheLookup
  rw [List.find?_append, cacheLookup_none_find? c s h]
  simp [List.find?]

lemma cacheLookup_some_key (c : Cache) (s : String) (mf : MolFeatures)
    (h : cacheLookup c s = some mf) : ∃ kv ∈ c, kv.1 = s ∧ kv.2 = mf := by
  unfold cacheLookup at h
  cases hf : c.find? (fun kv => kv.1 == s) with
  | none => rw [hf] at h; simp at h
  | some kv =>
      rw [hf] at h
      refine ⟨kv, List.mem_of_find?_eq_some hf, ?_, ?_⟩
      · have h2 := List.find?_some hf
        simpa using h2
      · simpa using h

lemma computeMol_parse_some (tk : Toolkit) (fl : Flags) (s : String) (mf : MolFeatures)
    (tr : List TkCall) (h : computeMol tk fl s = Except.ok (mf, tr)) :
    (tk.parse s).isSome = true := by
  unfold computeMol at h
  cases hp : tk.parse s with
  | none => rw [hp] at h; exact absurd h (by simp)
  | some m => rfl

lemma foldBatch_cache_ext (tk : Toolkit) (fl : Flags) :
    ∀ (B : List String) (acc res : BatchState × Cache × List TkCall),
      foldBatch tk fl acc B = Except.ok res → ∃ ext, res.2.1 = acc.2.1 ++ ext := by
  intro B
  induction B with
  | nil =>
      intro acc res h
      simp only [foldBatch, Except.ok.injEq] at h
      exact ⟨[], by rw [← h]; simp⟩
  | cons t rest ih =>
      intro acc res h
      unfold foldBatch at h
      cases hp : processSmiles tk fl acc t with
      | error e => rw [hp] at h; exact absurd h (by simp)
      | ok acc2 =>
          rw [hp] at h
          obtain ⟨ext2, hext2⟩ := ih acc2 res h
          unfold processSmiles at hp
          cases hl : cacheLookup acc.2.1 t with
          | some mft =>
              rw [hl] at hp
              simp only [Except.ok.injEq] at hp
              refine ⟨ext2, ?_⟩
              rw [hext2, ← hp]
          | none =>
              rw [hl] at hp
              cases hc : computeMol tk fl t with
              | error e => rw [hc] at hp; exact absurd hp (by simp)
              | ok p =>
                  rw [hc] at hp
                  simp only [Except.ok.injEq] at hp
                  refine ⟨[(t, p.1)] ++ ext2, ?_⟩
                  rw [hext2, ← hp]
                  simp

lemma foldBatch_caches (tk : Toolkit) (fl : Flags) :
    ∀ (B : List String) (acc res : BatchState × Cache × List TkCall) (s : String),
      foldBatch tk fl acc B = Except.ok res → s ∈ B → cacheLookup acc.2.1 s = none →
      ∃ mf tr2, computeMol tk fl s = Except.ok (mf, tr2) ∧ cacheLookup res.2.1 s = some mf := by
  intro B
  induction B with
  | nil =>
      intro acc res s _ hs
      simp at hs
  | cons t rest ih =>
      intro acc res s h hs hmiss
      unfold foldBatch at h
      cases hp : processSmiles tk fl acc t with
      | error e => rw [hp] at h; exact absurd h (by simp)
      | ok acc2 =>
          rw [hp] at h
          unfold processSmiles at hp
          cases hl : cacheLookup acc.2.1 t with
          | some mft =>
              rw [hl] at hp
              simp only [Except.ok.injEq] at hp
              have hts : t ≠ s := by
                intro hc
                rw [hc, hmiss] at hl
                exact absurd hl (by simp)
              have hsrest : s ∈ rest := by
                rcases List.mem_cons.mp hs with hh | hh
                · exact absurd hh.symm hts
                · exact hh
              have hmiss2 : cacheLookup acc2.2.1 s = none := by rw [← hp]; exact hmiss
              exact ih acc2 res s h hsrest hmiss2
          | none =>
              rw [hl] at hp
              cases hc : computeMol tk fl t with
              | error e => rw [hc] at hp; exact absurd hp (by simp)
              | ok p =>
                  rw [hc] at hp
                  simp only [Except.ok.injEq] at hp
                  by_cases hts : t = s
                  · subst hts
                    refine ⟨p.1, p.2, by rw [hc], ?_⟩
                    have hlook2 : cacheLookup acc2.2.1 t = some p.1 := by
                      rw [← hp]
                      exact cacheLookup_insert_self acc.2.1 t p.1 hmiss
                    obtain ⟨ext, hext⟩ := foldBatch_cache_ext tk fl rest acc2 res h
                    rw [hext]
                    exact cacheLookup_append_some acc2.2.1 ext t p.1 hlook2
                  · have hsrest : s ∈ rest := by
                      rcases List.mem_cons.mp hs with hh | hh
                      · exact absurd hh.symm hts
                      · exact hh
                    have hmiss2 : cacheLookup acc2.2.1 s = none := by
                      rw [← hp]
                      rw [cacheLookup_append_single_ne acc.2.1 t p.1 s hts]
                      exact hmiss
                    exact ih acc2 res s h hsrest hmiss2

/-- C1. The memoization cache is keyed by the raw notation alone: after a
`mol2graph` call under flags `fl1` whose batch contains `s` (not previously
cached), the tuple computed under `fl1` sits in the cache, and in any later
call under arbitrary different flags `fl2` the per-molecule step for `s` is a
cache hit that reuses that tuple unchanged — no recomputation, no toolkit
calls, regardless of `fl2`. -/
theorem c1_cache_key_ignores_flags (tk : Toolkit) (fl1 fl2 : Flags) (B : List String)
    (c0 : Cache) (g : BatchGraph) (c1 : Cache) (tr : List TkCall) (s : String)
    (hcall : mol2graph tk B fl1 c0 = Except.ok (g, c1, tr))
    (hs : s ∈ B) (hmiss : cacheLookup c0 s = none) :
    ∃ mf tr2, computeMol tk fl1 s = Except.ok (mf, tr2) ∧ cacheLookup c1 s = some mf ∧
      ∀ (ext : Cache) (st2 : BatchState) (tr3 : List TkCall),
        processSmiles tk fl2 (st2, c1 ++ ext, tr3) s =
          Except.ok (addMolToBatch st2 mf, c1 ++ ext, tr3) := by
  unfold mol2graph at hcall
  cases hf : foldBatch tk fl1 (initState fl1, c0, []) B with
  | error e => rw [hf] at hcall; exact absurd hcall (by simp)
  | ok res =>
      rw [hf] at hcall
      obtain ⟨st, cc, tt⟩ := res
      cases ha : assemble st with
      | error e => simp only [ha] at hcall; exact absurd hcall (by simp)
      | ok g0 =>
          simp only [ha, Except.ok.injEq, Prod.mk.injEq] at hcall
          obtain ⟨-, hc1, -⟩ := hcall
          obtain ⟨mf, tr2, hcm, hlook⟩ :=
            foldBatch_caches tk fl1 B (initState fl1, c0, []) (st, cc, tt) s hf hs hmiss
          refine ⟨mf, tr2, hcm, by rw [← hc1]; exact hlook, ?_⟩
          intro ext st2 tr3
          have hlook2 : cacheLookup (c1 ++ ext) s = some mf :=
            cacheLookup_append_some c1 ext s mf (by rw [← hc1]; exact hlook)
          unfold processSmiles
          rw [hlook2]

theorem c1_witness :
    ∃ mf tr2, computeMol toyTk flagsOff "CC" = Except.ok (mf, tr2) ∧
      cacheLookup c1Out.2.1 "CC" = some mf ∧
      ∀ (ext : Cache) (st2 : BatchState) (tr3 : List TkCall),
        processSmiles toyTk flagsVirt (st2, c1Out.2.1 ++ ext, tr3) "CC" =
          Except.ok (addMolToBatch st2 mf, c1Out.2.1 ++ ext, tr3) :=
  c1_cache_key_ignores_flags toyTk flagsOff flagsVirt ["CC"] [] c1Out.1 c1Out.2.1
    c1Out.2.2 "CC" rfl (by simp) rfl

/-! ## Parse failure aborts the batch -/

lemma foldBatch_parse_failure (tk : Toolkit) (fl : Flags) (s : String)
    (hbad : tk.parse s = none) :
    ∀ (B : List String) (acc : BatchState × Cache × List TkCall),
      s ∈ B → CacheParses tk acc.2.1 →
      ∃ e, foldBatch tk fl acc B = Except.error e := by
  intro B
  induction B with
  | nil =>
      intro acc hs
      simp at hs
  | cons t rest ih =>
      intro acc hs hwf
      cases hp : processSmiles tk fl acc t with
      | error e => exact ⟨e, by unfold foldBatch; rw [hp]⟩
      | ok acc2 =>
          have hts : t ≠ s := by
            intro hc
            subst hc
            unfold processSmiles at hp
            cases hl : cacheLookup acc.2.1 t with
            | some mft =>
                obtain ⟨kv, hkv, hk1, -⟩ := cacheLookup_some_key acc.2.1 t mft hl
                have := hwf kv hkv
                rw [hk1, hbad] at this
                exact absurd this (by simp)
            | none =>
                rw [hl] at hp
                cases hc2 : computeMol tk fl t with
                | error e => rw [hc2] at hp; exact absurd hp (by simp)
                | ok p =>
                    have := computeMol_parse_some tk fl t p.1 p.2 (by rw [hc2])
                    rw [hbad] at this
                    exact absurd this (by simp)
          have hsrest : s ∈ rest := by
            rcases List.mem_cons.mp hs with hh | hh
            · exact absurd hh.symm hts
            · exact hh
          have hwf2 : CacheParses tk acc2.2.1 := by
            unfold processSmiles at hp
            cases hl : cacheLookup acc.2.1 t with
            | some mft =>
                rw [hl] at hp
                simp only [Except.ok.injEq] at hp
                rw [← hp]
                exact hwf
            | none =>
                rw [hl] at hp
                cases hc2 : computeMol tk fl t with
                | error e => rw [hc2] at hp; exact absurd hp (by simp)
                | ok p =>
                    rw [hc2] at hp
                    simp only [Except.ok.injEq] at hp
                    rw [← hp]
                    intro kv hkv
                    rcases List.mem_append.mp hkv with hkv | hkv
                    · exact hwf kv hkv
                    · have hkv2 : kv = (t, p.1) := by simpa using hkv
                      rw [hkv2]
                      exact computeMol_parse_some tk fl t p.1 p.2 (by rw [hc2])
          obtain ⟨e, he⟩ := ih acc2 hsrest hwf2
          exact ⟨e, by unfold foldBatch; rw [hp]; exact he⟩

/-- C8. A batch containing a notation the toolkit cannot parse (and not
shadowed by a cache entry: every cached key parses, as the program guarantees)
makes the whole `mol2graph` call fail with an error — no partial batch is
returned. -/
theorem c8_parse_failure_aborts (tk : Toolkit) (B : List String) (fl : Flags)
    (c0 : Cache) (s : String) (hs : s ∈ B) (hbad : tk.parse s = none)
    (hwf : CacheParses tk c0) :
    ∃ e, mol2graph tk B fl c0 = Except.error e := by
  obtain ⟨e, he⟩ := foldBatch_parse_failure tk fl s hbad B (initState fl, c0, []) hs hwf
  exact ⟨e, by unfold mol2graph; rw [he]⟩

theorem c8_witness : ∃ e, mol2graph toyTk ["C", "XX"] flagsOff [] = Except.error e :=
  c8_parse_failure_aborts toyTk ["C", "XX"] flagsOff [] "XX" (by simp) rfl
    (by intro kv hkv; cases hkv)

/-! ## Batch characterization: the state after the fold is the concatenation
of the per-molecule tuples the notations determine -/

lemma computeMol_fatoms_len (tk : Toolkit) (fl : Flags) (s : String) (mf : MolFeatures)
    (tr : List TkCall) (h : computeMol tk fl s = Except.ok (mf, tr)) :
    mf.fatoms.length = mf.nAtoms := by
  unfold computeMol at h
  cases hp : tk.parse s with
  | none => rw [hp] at h; exact absurd h (by simp)
  | some m =>
      rw [hp] at h
      simp only [Except.ok.injEq, Prod.mk.injEq] at h
      rw [← h.1]
      simp

lemma foldBatch_char (tk : Toolkit) (fl : Flags) :
    ∀ (B : List String) (acc res : BatchState × Cache × List TkCall),
      Consistent tk fl acc.2.1 → foldBatch tk fl acc B = Except.ok res →
      ∃ mfs, molFeatsList tk fl B = Except.ok mfs ∧
        res.1 = mfs.foldl addMolToBatch acc.1 ∧ Consistent tk fl res.2.1 := by
  intro B
  induction B with
  | nil =>
      intro acc res hcon h
      simp only [foldBatch, Except.ok.injEq] at h
      exact ⟨[], rfl, by rw [← h]; rfl, by rw [← h]; exact hcon⟩
  | cons s rest ih =>
      intro acc res hcon h
      unfold foldBatch at h
      cases hp : processSmiles tk fl acc s with
      | error e => rw [hp] at h; exact absurd h (by simp)
      | ok acc2 =>
          rw [hp] at h
          unfold processSmiles at hp
          cases hl : cacheLookup acc.2.1 s with
          | some mf =>
              rw [hl] at hp
              simp only [Except.ok.injEq] at hp
              obtain ⟨kv, hkv, hk1, hk2⟩ := cacheLookup_some_key acc.2.1 s mf hl
              obtain ⟨trc, htrc⟩ := hcon kv hkv
              have hcm : computeMol tk fl s = Except.ok (mf, trc) := by
                rw [← hk1, htrc, hk2]
              have hcon2 : Consistent tk fl acc2.2.1 := by rw [← hp]; exact hcon
              obtain ⟨mfs, hml, hst, hcon3⟩ := ih acc2 res hcon2 h
              refine ⟨mf :: mfs, ?_, ?_, hcon3⟩
              · unfold molFeatsList
                rw [hcm, hml]
              · rw [hst, ← hp]
                simp [List.foldl_cons]
          | none =>
              rw [hl] at hp
              cases hc : computeMol tk fl s with
              | error e => rw [hc] at hp; exact absurd hp (by simp)
              | ok p =>
                  rw [hc] at hp
                  simp only [Except.ok.injEq] at hp
                  have hcon2 : Consistent tk fl acc2.2.1 := by
                    rw [← hp]
                    intro kv hkv
                    rcases List.mem_append.mp hkv with hkv | hkv
                    · exact hcon kv hkv
                    · have hkv2 : kv = (s, p.1) := by simpa using hkv
                      rw [hkv2]
                      exact ⟨p.2, by rw [hc]⟩
                  obtain ⟨mfs, hml, hst, hcon3⟩ := ih acc2 res hcon2 h
                  refine ⟨p.1 :: mfs, ?_, ?_, hcon3⟩
                  · unfold molFeatsList
                    rw [hc, hml]
                  · rw [hst, ← hp]
                    simp [List.foldl_cons]

lemma foldl_addMol_fatoms : ∀ (mfs : List MolFeatures) (st : BatchState),
    (mfs.foldl addMolToBatch st).fatoms = st.fatoms ++ (mfs.map MolFeatures.fatoms).flatten := by
  intro mfs
  induction mfs with
  | nil => intro st; simp
  | cons mf mfs ih =>
      intro st
      rw [List.foldl_cons, ih, List.map_cons, List.flatten_cons]
      simp [addMolToBatch]

lemma foldl_addMol_fbonds : ∀ (mfs : List MolFeatures) (st : BatchState),
    (mfs.foldl addMolToBatch st).fbonds = st.fbonds ++ (mfs.map MolFeatures.fbonds).flatten := by
  intro mfs
  induction mfs with
  | nil => intro st; simp
  | cons mf mfs ih =>
      intro st
      rw [List.foldl_cons, ih, List.map_cons, List.flatten_cons]
      simp [addMolToBatch]

lemma addMol_total (st : BatchState) (mf : MolFeatures) :
    (addMolToBatch st mf).total_atoms = st.total_atoms + mf.nAtoms := rfl

lemma foldl_addMol_scope : ∀ (mfs : List MolFeatures) (st : BatchState),
    (mfs.foldl addMolToBatch st).scope = st.scope ++ scopesFrom st.total_atoms mfs := by
  intro mfs
  induction mfs with
  | nil => intro st; simp [scopesFrom]
  | cons mf mfs ih =>
      intro st
      rw [List.foldl_cons, ih, scopesFrom]
      simp [addMolToBatch]

lemma molFeatsList_get (tk : Toolkit) (fl : Flags) :
    ∀ (B : List String) (mfs : List MolFeatures) (k : Nat) (s : String),
      molFeatsList tk fl B = Except.ok mfs → B[k]? = some s →
      ∃ mf tr, mfs[k]? = some mf ∧ computeMol tk fl s = Except.ok (mf, tr) := by
  intro B
  induction B with
  | nil =>
      intro mfs k s _ hk
      simp at hk
  | cons t rest ih =>
      intro mfs k s h hk
      unfold molFeatsList at h
      cases hc : computeMol tk fl t with
      | error e => rw [hc] at h; exact absurd h (by simp)
      | ok p =>
          rw [hc] at h
          cases hml : molFeatsList tk fl rest with
          | error e => rw [hml] at h; exact absurd h (by simp)
          | ok mfs2 =>
              rw [hml] at h
              simp only [Except.ok.injEq] at h
              cases k with
              | zero =>
                  have hts : t = s := by simpa using hk
                  subst hts
                  exact ⟨p.1, p.2, by rw [← h]; simp, by rw [hc]⟩
              | succ j =>
                  have hk2 : rest[j]? = some s := by simpa using hk
                  obtain ⟨mf, tr, hmf, hcm⟩ := ih mfs2 j s hml hk2
                  exact ⟨mf, tr, by rw [← h]; simpa using hmf, hcm⟩

lemma molFeatsList_fatoms_len (tk : Toolkit) (fl : Flags) :
    ∀ (B : List String) (mfs : List MolFeatures),
      molFeatsList tk fl B = Except.ok mfs →
      ∀ mf ∈ mfs, mf.fatoms.length = mf.nAtoms := by
  intro B
  induction B with
  | nil =>
      intro mfs h mf hmf
      simp only [molFeatsList, Except.ok.injEq] at h
      rw [← h] at hmf
      simp at hmf
  | cons t rest ih =>
      intro mfs h mf hmf
      unfold molFeatsList at h
      cases hc : computeMol tk fl t with
      | error e => rw [hc] at h; exact absurd h (by simp)
      | ok p =>
          rw [hc] at h
          cases hml : molFeatsList tk fl rest with
          | error e => rw [hml] at h; exact absurd h (by simp)
          | ok mfs2 =>
              rw [hml] at h
              simp only [Except.ok.injEq] at h
              rw [← h] at hmf
              rcases List.mem_cons.mp hmf with hmf | hmf
              · rw [hmf]
                exact computeMol_fatoms_len tk fl t p.1 p.2 (by rw [hc])
              · exact ih mfs2 hml mf hmf

lemma scopesFrom_get : ∀ (k : Nat) (mfs : List MolFeatures) (t : Nat) (mf : MolFeatures),
    mfs[k]? = some mf →
    (scopesFrom t mfs)[k]? =
      some (t + ((mfs.take k).map MolFeatures.nAtoms).sum, mf.nAtoms) := by
  intro k
  induction k with
  | zero =>
      intro mfs t mf hk
      cases mfs with
      | nil => simp at hk
      | cons x rest =>
          have hx : x = mf := by simpa using hk
          subst hx
          simp [scopesFrom]
  | succ j ih =>
      intro mfs t mf hk
      cases mfs with
      | nil => simp at hk
      | cons x rest =>
          have hk2 : rest[j]? = some mf := by simpa using hk
          have := ih rest (t + x.nAtoms) mf hk2
          simp only [scopesFrom, List.getElem?_cons_succ]
          rw [this]
          simp [Nat.add_assoc]

lemma drop_append_add {α : Type} : ∀ (l1 l2 : List α) (i : Nat),
    (l1 ++ l2).drop (l1.length + i) = l2.drop i := by
  intro l1
  induction l1 with
  | nil => intro l2 i; simp
  | cons x xs ih =>
      intro l2 i
      simp only [List.cons_append, List.length_cons]
      rw [Nat.add_assoc, Nat.add_comm 1 i] at *
      calc (x :: (xs ++ l2)).drop (xs.length + (i + 1))
          = (x :: (xs ++ l2)).drop (xs.length + i + 1) := by ring_nf
        _ = (xs ++ l2).drop (xs.length + i) := by rw [List.drop_succ_cons]
        _ = l2.drop i := ih l2 i

lemma flatten_slice {α : Type} : ∀ (k : Nat) (L : List (List α)) (x : List α),
    L[k]? = some x →
    ((L.flatten.drop (((L.take k).map List.length).sum)).take x.length) = x := by
  intro k
  induction k with
  | zero =>
      intro L x hk
      cases L with
      | nil => simp at hk
      | cons y rest =>
          have hy : y = x := by simpa using hk
          subst hy
          simp only [List.take_zero, List.map_nil, List.sum_nil, List.drop_zero,
            List.flatten_cons]
          exact List.take_left y rest.flatten
  | succ j ih =>
      intro L x hk
      cases L with
      | nil => simp at hk
      | cons y rest =>
          have hk2 : rest[j]? = some x := by simpa using hk
          have htake : ((y :: rest).take (j + 1)).map List.length =
              y.length :: ((rest.take j).map List.length) := by simp
          rw [htake, List.sum_cons, List.flatten_cons, drop_append_add]
          exact ih rest x hk2

lemma mol2graph_unpack (tk : Toolkit) (fl : Flags) (B : List String) (c0 : Cache)
    (g : BatchGraph) (c2 : Cache) (tr : List TkCall)
    (h : mol2graph tk B fl c0 = Except.ok (g, c2, tr)) :
    ∃ st, foldBatch tk fl (initState fl, c0, []) B = Except.ok (st, c2, tr) ∧
      assemble st = Except.ok g := by
  unfold mol2graph at h
  cases hf : foldBatch tk fl (initState fl, c0, []) B with
  | error e => rw [hf] at h; exact absurd h (by simp)
  | ok res =>
      rw [hf] at h
      obtain ⟨st, cc, tt⟩ := res
      cases ha : assemble st with
      | error e => simp only [ha] at h; exact absurd h (by simp)
      | ok g0 =>
          simp only [ha, Except.ok.injEq, Prod.mk.injEq] at h
          obtain ⟨hg, hcc, htt⟩ := h
          subst hcc
          subst htt
          exact ⟨st, rfl, by rw [ha, hg]⟩

lemma assemble_fields (st : BatchState) (g : BatchGraph) (h : assemble st = Except.ok g) :
    g.fatoms = st.fatoms ∧ g.fbonds = st.fbonds ∧ g.scope = st.scope := by
  unfold assemble at h
  cases hm : maxOf (st.in_bonds.map List.length) with
  | error e => rw [hm] at h; exact absurd h (by simp)
  | ok M =>
      rw [hm] at h
      simp only [Except.ok.injEq] at h
      refine ⟨?_, ?_, ?_⟩ <;> rw [← h]

/-- C2. No cross-molecule leakage: when `mol2graph` succeeds on a batch with
`s` at position `k` (from a cache consistent with the flags, e.g. empty), the
per-atom rows of `s` occupy exactly the slice named by `scope[k]` and equal
the `fatoms` of `mol2graph([s])` alone, and its per-bond rows form a
contiguous slice of the batch `fbonds` equal to the singleton call's `fbonds`
minus the sentinel row — only the running index offset differs. -/
theorem c2_no_cross_molecule_leakage (tk : Toolkit) (fl : Flags) (B : List String)
    (k : Nat) (s : String) (c0 : Cache) (g : BatchGraph) (c2 : Cache) (tr : List TkCall)
    (g1 : BatchGraph) (c1b : Cache) (tr1 : List TkCall)
    (hcon : Consistent tk fl c0)
    (hB : mol2graph tk B fl c0 = Except.ok (g, c2, tr))
    (hk : B[k]? = some s)
    (h1 : mol2graph tk [s] fl [] = Except.ok (g1, c1b, tr1)) :
    ∃ aoff, g.scope[k]? = some (aoff, g1.fatoms.length) ∧
      (g.fatoms.drop aoff).take g1.fatoms.length = g1.fatoms ∧
      ∃ boff, (g.fbonds.drop boff).take (g1.fbonds.length - 1) = g1.fbonds.drop 1 := by
  obtain ⟨st, hf, ha⟩ := mol2graph_unpack tk fl B c0 g c2 tr hB
  obtain ⟨hga, hgb, hgs⟩ := assemble_fields st g ha
  obtain ⟨mfs, hml, hst, -⟩ :=
    foldBatch_char tk fl B (initState fl, c0, []) (st, c2, tr) hcon hf
  have hstv : st = List.foldl addMolToBatch (initState fl) mfs := hst
  obtain ⟨mf, trk, hmfs, hcm⟩ := molFeatsList_get tk fl B mfs k s hml hk
  -- the singleton call yields exactly the tuple of s
  obtain ⟨st1, hf1, ha1⟩ := mol2graph_unpack tk fl [s] [] g1 c1b tr1 h1
  obtain ⟨hga1, hgb1, -⟩ := assemble_fields st1 g1 ha1
  obtain ⟨mfs1, hml1, hst1, -⟩ :=
    foldBatch_char tk fl [s] (initState fl, [], []) (st1, c1b, tr1)
      (by intro kv hkv; cases hkv) hf1
  have hml1s : molFeatsList tk fl [s] = Except.ok [mf] := by
    unfold molFeatsList
    rw [hcm]
    rfl
  have hmfs1 : mfs1 = [mf] := by
    rw [hml1] at hml1s
    simpa using hml1s
  have hst1p : st1 = List.foldl addMolToBatch (initState fl) mfs1 := hst1
  have hst1v : st1 = addMolToBatch (initState fl) mf := by
    rw [hst1p, hmfs1]
    rfl
  have hg1a : g1.fatoms = mf.fatoms := by
    rw [hga1, hst1v]
    simp [addMolToBatch, initState]
  have hg1b : g1.fbonds = paddingRow fl :: mf.fbonds := by
    rw [hgb1, hst1v]
    simp [addMolToBatch, initState]
  have hlen : mf.fatoms.length = mf.nAtoms :=
    computeMol_fatoms_len tk fl s mf trk hcm
  -- batch tensors as concatenations
  have hsta : st.fatoms = (mfs.map MolFeatures.fatoms).flatten := by
    rw [hstv, foldl_addMol_fatoms]
    simp [initState]
  have hstb : st.fbonds = paddingRow fl :: (mfs.map MolFeatures.fbonds).flatten := by
    rw [hstv, foldl_addMol_fbonds]
    simp [initState]
  have hsts : st.scope = scopesFrom 0 mfs := by
    rw [hstv, foldl_addMol_scope]
    simp [initState]
  -- atom offset
  refine ⟨((mfs.take k).map MolFeatures.nAtoms).sum, ?_, ?_, ?_⟩
  · rw [hgs, hsts, scopesFrom_get k mfs 0 mf hmfs]
    rw [hg1a, hlen]
    simp
  · have hL : (mfs.map MolFeatures.fatoms)[k]? = some mf.fatoms := by
      rw [List.getElem?_map, hmfs]
      rfl
    have hslice := flatten_slice k (mfs.map MolFeatures.fatoms) mf.fatoms hL
    have hoff : (((mfs.map MolFeatures.fatoms).take k).map List.length).sum =
        ((mfs.take k).map MolFeatures.nAtoms).sum := by
      rw [← List.map_take, List.map_map]
      have : ∀ m ∈ mfs.take k,
          (List.length ∘ MolFeatures.fatoms) m = MolFeatures.nAtoms m := by
        intro m hm
        exact molFeatsList_fatoms_len tk fl B mfs hml m (List.mem_of_mem_take hm)
      rw [List.map_congr_left this]
    rw [hga, hsta, hg1a]
    rw [← hoff]
    exact hslice
  · refine ⟨1 + (((mfs.map MolFeatures.fbonds).take k).map List.length).sum, ?_⟩
    have hL : (mfs.map MolFeatures.fbonds)[k]? = some mf.fbonds := by
      rw [List.getElem?_map, hmfs]
      rfl
    have hslice := flatten_slice k (mfs.map MolFeatures.fbonds) mf.fbonds hL
    have hdrop : (paddingRow fl :: (mfs.map MolFeatures.fbonds).flatten).drop
        (1 + (((mfs.map MolFeatures.fbonds).take k).map List.length).sum) =
        (mfs.map MolFeatures.fbonds).flatten.drop
          ((((mfs.map MolFeatures.fbonds).take k).map List.length).sum) := by
      rw [Nat.add_comm]
      exact List.drop_succ_cons
    rw [hgb, hstb, hg1b, hdrop]
    simpa using hslice

theorem c2_witness :
    Consistent toyTk flagsOff [] ∧
    (∃ aoff, c2Out.1.scope[1]? = some (aoff, c2OutS.1.fatoms.length) ∧
      (c2Out.1.fatoms.drop aoff).take c2OutS.1.fatoms.length = c2OutS.1.fatoms ∧
      ∃ boff, (c2Out.1.fbonds.drop boff).take (c2OutS.1.fbonds.length - 1) =
        c2OutS.1.fbonds.drop 1) := by
  refine ⟨?_, ?_⟩
  · intro kv hkv
    cases hkv
  · exact c2_no_cross_molecule_leakage toyTk flagsOff ["C", "CC"] 1 "CC" [] c2Out.1
      c2Out.2.1 c2Out.2.2 c2OutS.1 c2OutS.2.1 c2OutS.2.2
      (by intro kv hkv; cases hkv) rfl rfl rfl

/-! ## Index-table correctness (agraph / bgraph) -/

lemma atomPairs_mem (n : Nat) (p : Nat × Nat) (h : p ∈ atomPairs n) :
    p.1 < n ∧ p.2 < n := by
  unfold atomPairs at h
  obtain ⟨a1, ha1, hp⟩ := List.mem_flatMap.mp h
  obtain ⟨a2, ha2, hpa⟩ := List.mem_map.mp hp
  rw [← hpa]
  refine ⟨by simpa using ha1, ?_⟩
  have hmem := List.mem_of_mem_drop ha2
  simpa using hmem

lemma pairStep_bounds_step (fl : Flags) (mol : Molecule) (mfa : List (List Int)) (n : Nat)
    (acc : List (Nat × Nat) × List (List Int)) (p : Nat × Nat)
    (hacc : ∀ q ∈ acc.1, q.1 < n ∧ q.2 < n) (hp : p.1 < n ∧ p.2 < n) :
    ∀ q ∈ (pairStep fl mol mfa acc p).1, q.1 < n ∧ q.2 < n := by
  intro q hq
  unfold pairStep at hq
  split at hq
  · exact hacc q hq
  · simp only [List.mem_append] at hq
    rcases hq with hq | hq
    · exact hacc q hq
    · simp only [List.mem_cons, List.mem_singleton] at hq
      rcases hq with hq | hq | hq
      · rw [hq]; exact hp
      · rw [hq]; exact ⟨hp.2, hp.1⟩
      · simp at hq

lemma pairStep_fold_bounds (fl : Flags) (mol : Molecule) (mfa : List (List Int)) (n : Nat) :
    ∀ (pairs : List (Nat × Nat)) (acc : List (Nat × Nat) × List (List Int)),
      (∀ q ∈ acc.1, q.1 < n ∧ q.2 < n) → (∀ p ∈ pairs, p.1 < n ∧ p.2 < n) →
      ∀ q ∈ (pairs.foldl (pairStep fl mol mfa) acc).1, q.1 < n ∧ q.2 < n := by
  intro pairs
  induction pairs with
  | nil => intro acc hacc _ q hq; exact hacc q hq
  | cons p rest ih =>
      intro acc hacc hps q hq
      rw [List.foldl_cons] at hq
      exact ih (pairStep fl mol mfa acc p)
        (pairStep_bounds_step fl mol mfa n acc p hacc (hps p (by simp)))
        (fun r hr => hps r (by simp [hr])) q hq

lemma computeMol_bounded (tk : Toolkit) (fl : Flags) (s : String) (mf : MolFeatures)
    (tr : List TkCall) (h : computeMol tk fl s = Except.ok (mf, tr)) : MFBounded mf := by
  unfold computeMol at h
  cases hp : tk.parse s with
  | none => rw [hp] at h; exact absurd h (by simp)
  | some m =>
      rw [hp] at h
      simp only [Except.ok.injEq, Prod.mk.injEq] at h
      obtain ⟨hmf, -⟩ := h
      subst hmf
      intro q hq
      exact pairStep_fold_bounds fl _ _ _ _ ([], []) (by intro r hr; simp at hr)
        (fun r hr => atomPairs_mem _ r hr) q hq

lemma destOf_append_lt (ab : List (Int × Int)) (x : Int × Int) (b : Nat)
    (h : b < ab.length) : destOf (ab ++ [x]) b = destOf ab b := by
  unfold destOf
  rw [getD_append_lt ab [x] _ b h]

lemma srcOf_append_lt (ab : List (Int × Int)) (x : Int × Int) (b : Nat)
    (h : b < ab.length) : srcOf (ab ++ [x]) b = srcOf ab b := by
  unfold srcOf
  rw [getD_append_lt ab [x] _ b h]

lemma destOf_append_last (ab : List (Int × Int)) (x : Int × Int) :
    destOf (ab ++ [x]) ab.length = x.2 := by
  unfold destOf
  rw [getD_append_ge ab [x] _ ab.length (le_refl _)]
  simp

lemma srcOf_append_last (ab : List (Int × Int)) (x : Int × Int) :
    srcOf (ab ++ [x]) ab.length = x.1 := by
  unfold srcOf
  rw [getD_append_ge ab [x] _ ab.length (le_refl _)]
  simp

lemma filter_range_append_last (ab : List (Int × Int)) (x : Int × Int) (a : Nat) :
    (List.range (ab.length + 1)).filter (fun b => destOf (ab ++ [x]) b = (a : Int)) =
      ((List.range ab.length).filter (fun b => destOf ab b = (a : Int))) ++
        (if x.2 = (a : Int) then [ab.length] else []) := by
  rw [List.range_succ, List.filter_append]
  congr 1
  · apply List.filter_congr
    intro b hb
    have hbl : b < ab.length := List.mem_range.mp hb
    simp [destOf_append_lt ab x b hbl]
  · simp only [List.filter]
    rw [destOf_append_last]
    split
    · simp_all
    · simp_all

lemma StInv_step (T n : Nat) (ab : List (Int × Int)) (ib : List (List Nat))
    (hlen : ib.length = T + n) (hinv : StInv ab ib) (p : Nat × Nat)
    (hp1 : p.1 < n) (hp2 : p.2 < n) :
    StInv (ab ++ [(((p.1 + T : Nat) : Int), ((p.2 + T : Nat) : Int))])
      (updateAt ib (p.2 + T) (fun l => l ++ [ab.length])) := by
  obtain ⟨hab1, hab0, hbound, hrows⟩ := hinv
  have hulen : (updateAt ib (p.2 + T) (fun l => l ++ [ab.length])).length = ib.length :=
    updateAt_length ib _ _
  refine ⟨?_, ?_, ?_, ?_⟩
  · rw [List.length_append]
    omega
  · rw [getD_append_lt ab _ _ 0 (by omega)]
    exact hab0
  · intro b hb1 hbL
    rw [List.length_append, List.length_cons, List.length_nil] at hbL
    by_cases hlt : b < ab.length
    · rw [srcOf_append_lt ab _ b hlt, destOf_append_lt ab _ b hlt, hulen]
      exact hbound b hb1 hlt
    · have hbeq : b = ab.length := by omega
      subst hbeq
      rw [srcOf_append_last, destOf_append_last, hulen]
      refine ⟨Int.natCast_nonneg _, ?_, Int.natCast_nonneg _, ?_⟩
      · rw [Int.toNat_natCast, hlen]
        omega
      · rw [Int.toNat_natCast, hlen]
        omega
  · intro a
    simp only [List.length_append, List.length_cons, List.length_nil, Nat.add_zero]
    rw [filter_range_append_last]
    by_cases ha : a = p.2 + T
    · subst ha
      have hidx : p.2 + T < ib.length := by omega
      rw [getD_updateAt_self ib _ _ [] hidx, hrows (p.2 + T)]
      simp
    · rw [getD_updateAt_ne ib _ _ _ [] (fun hc => ha hc.symm), hrows a]
      have hne2 : ¬ ((p.2 : Int) + (T : Int) = (a : Int)) := by omega
      simp [hne2]

lemma addBond_fold_inv (T n : Nat) :
    ∀ (bonds : List (Nat × Nat)) (ab : List (Int × Int)) (ib : List (List Nat)),
      ib.length = T + n → StInv ab ib →
      (∀ p ∈ bonds, p.1 < n ∧ p.2 < n) →
      (bonds.foldl (addBondStep T) (ab, ib)).2.length = T + n ∧
        StInv (bonds.foldl (addBondStep T) (ab, ib)).1
          (bonds.foldl (addBondStep T) (ab, ib)).2 := by
  intro bonds
  induction bonds with
  | nil => intro ab ib hlen hinv _; exact ⟨hlen, hinv⟩
  | cons p rest ih =>
      intro ab ib hlen hinv hb
      rw [List.foldl_cons]
      have hp := hb p (by simp)
      have hstep : addBondStep T (ab, ib) p =
          (ab ++ [(((p.1 + T : Nat) : Int), ((p.2 + T : Nat) : Int))],
           updateAt ib (p.2 + T) (fun l => l ++ [ab.length])) := rfl
      rw [hstep]
      exact ih _ _ (by rw [updateAt_length]; exact hlen)
        (StInv_step T n ab ib hlen hinv p hp.1 hp.2)
        (fun q hq => hb q (by simp [hq]))

lemma StInv_extend (st : BatchState) (nA : Nat)
    (hlen : st.in_bonds.length = st.total_atoms)
    (hinv : StInv st.all_bonds st.in_bonds) :
    StInv st.all_bonds (st.in_bonds ++ List.replicate nA []) := by
  obtain ⟨hab1, hab0, hbound, hrows⟩ := hinv
  refine ⟨hab1, hab0, ?_, ?_⟩
  · intro b hb1 hbL
    obtain ⟨hs1, hs2, hd1, hd2⟩ := hbound b hb1 hbL
    refine ⟨hs1, ?_, hd1, ?_⟩
    · rw [List.length_append]
      omega
    · rw [List.length_append]
      omega
  · intro a
    by_cases ha : a < st.in_bonds.length
    · rw [getD_append_lt _ _ _ a ha]
      exact hrows a
    · rw [getD_append_ge _ _ _ a (le_of_not_lt ha), getD_replicate]
      have hLHS : (if a - st.in_bonds.length < nA then ([] : List Nat) else []) = [] := by
        split <;> rfl
      rw [hLHS]
      symm
      rw [List.filter_eq_nil_iff]
      intro b hbmem
      have hbL : b < st.all_bonds.length := List.mem_range.mp hbmem
      by_cases hb0 : b = 0
      · subst hb0
        unfold destOf
        rw [hab0]
        simp only [decide_eq_true_eq]
        omega
      · have hb1 : 1 ≤ b := Nat.one_le_iff_ne_zero.mpr hb0
        obtain ⟨-, -, hd1, hd2⟩ := hbound b hb1 hbL
        simp only [decide_eq_true_eq]
        intro hc
        have : (destOf st.all_bonds b).toNat = a := by
          rw [hc, Int.toNat_natCast]
        omega

lemma addMol_inv (st : BatchState) (mf : MolFeatures)
    (hlen : st.in_bonds.length = st.total_atoms)
    (hinv : StInv st.all_bonds st.in_bonds) (hmf : MFBounded mf) :
    (addMolToBatch st mf).in_bonds.length = (addMolToBatch st mf).total_atoms ∧
      StInv (addMolToBatch st mf).all_bonds (addMolToBatch st mf).in_bonds := by
  have hlen0 : (st.in_bonds ++ List.replicate mf.nAtoms []).length =
      st.total_atoms + mf.nAtoms := by
    rw [List.length_append, List.length_replicate, hlen]
  have hinv0 := StInv_extend st mf.nAtoms hlen hinv
  exact addBond_fold_inv st.total_atoms mf.nAtoms mf.allBonds st.all_bonds
    (st.in_bonds ++ List.replicate mf.nAtoms []) hlen0 hinv0 hmf

lemma foldBatch_inv (tk : Toolkit) (fl : Flags) :
    ∀ (B : List String) (acc res : BatchState × Cache × List TkCall),
      CacheBounded acc.2.1 →
      acc.1.in_bonds.length = acc.1.total_atoms →
      StInv acc.1.all_bonds acc.1.in_bonds →
      foldBatch tk fl acc B = Except.ok res →
      res.1.in_bonds.length = res.1.total_atoms ∧
        StInv res.1.all_bonds res.1.in_bonds := by
  intro B
  induction B with
  | nil =>
      intro acc res _ hlen hinv h
      simp only [foldBatch, Except.ok.injEq] at h
      rw [← h]
      exact ⟨hlen, hinv⟩
  | cons s rest ih =>
      intro acc res hcb hlen hinv h
      unfold foldBatch at h
      cases hp : processSmiles tk fl acc s with
      | error e => rw [hp] at h; exact absurd h (by simp)
      | ok acc2 =>
          rw [hp] at h
          unfold processSmiles at hp
          cases hl : cacheLookup acc.2.1 s with
          | some mf =>
              rw [hl] at hp
              simp only [Except.ok.injEq] at hp
              obtain ⟨kv, hkv, -, hk2⟩ := cacheLookup_some_key acc.2.1 s mf hl
              have hmf : MFBounded mf := by rw [← hk2]; exact hcb kv hkv
              have hstep := addMol_inv acc.1 mf hlen hinv hmf
              exact ih acc2 res (by rw [← hp]; exact hcb)
                (by rw [← hp]; exact hstep.1) (by rw [← hp]; exact hstep.2) h
          | none =>
              rw [hl] at hp
              cases hc : computeMol tk fl s with
              | error e => rw [hc] at hp; exact absurd hp (by simp)
              | ok q =>
                  rw [hc] at hp
                  simp only [Except.ok.injEq] at hp
                  have hmf : MFBounded q.1 :=
                    computeMol_bounded tk fl s q.1 q.2 (by rw [hc])
                  have hstep := addMol_inv acc.1 q.1 hlen hinv hmf
                  have hcb2 : CacheBounded acc2.2.1 := by
                    rw [← hp]
                    intro kv hkv
                    rcases List.mem_append.mp hkv with hkv | hkv
                    · exact hcb kv hkv
                    · have hkv2 : kv = (s, q.1) := by simpa using hkv
                      rw [hkv2]
                      exact hmf
                  exact ih acc2 res hcb2 (by rw [← hp]; exact hstep.1)
                    (by rw [← hp]; exact hstep.2) h

lemma initState_inv (fl : Flags) :
    (initState fl).in_bonds.length = (initState fl).total_atoms ∧
      StInv (initState fl).all_bonds (initState fl).in_bonds := by
  refine ⟨rfl, ?_, rfl, ?_, ?_⟩
  · simp [initState]
  · intro b hb1 hbL
    simp [initState] at hbL
    omega
  · intro a
    simp only [initState]
    have hnil : (([] : List (List Nat))).getD a [] = [] := by
      cases a <;> rfl
    rw [hnil]
    symm
    rw [List.filter_eq_nil_iff]
    intro b hbmem
    have hb : b = 0 := by simpa [initState] using hbmem
    subst hb
    simp only [destOf, decide_eq_true_eq]
    intro hc
    simp at hc

lemma assemble_tables (st : BatchState) (g : BatchGraph) (M : Nat)
    (h : assemble st = Except.ok g)
    (hm : maxOf (st.in_bonds.map List.length) = Except.ok M) :
    g.agraph = st.in_bonds.map (padTo M) ∧
    g.bgraph = (List.range st.all_bonds.length).map (fun b1 =>
      if b1 = 0 then List.replicate M 0
      else
        padTo M ((st.in_bonds.getD (st.all_bonds.getD b1 (-1, -1)).1.toNat []).map
          (fun b2 => if (st.all_bonds.getD b2 (-1, -1)).1 ≠ (st.all_bonds.getD b1 (-1, -1)).2
            then b2 else 0))) := by
  unfold assemble at h
  rw [hm] at h
  simp only [Except.ok.injEq] at h
  refine ⟨?_, ?_⟩ <;> rw [← h]

/-- C3. For every accepted batch (from a cache whose tuples index their own
atoms, as all program-written entries do): row `a` of `agraph` is exactly the
list of global indices of the directed bonds whose destination is `a`, in
index order, padded with the sentinel 0 to the batch-wide maximum in-degree
`M`; and for every directed bond `b1` with global index ≥ 1 with endpoints
`(x, y)`, row `b1` of `bgraph` is the incoming-bond list of `x` with each
entry `b2` kept unless its source is `y` (the direct reverse edge), that slot
holding 0 instead, padded with 0 to width `M`. -/
theorem c3_agraph_bgraph (tk : Toolkit) (fl : Flags) (B : List String) (c0 : Cache)
    (st : BatchState) (cc : Cache) (tt : List TkCall) (g : BatchGraph) (M : Nat)
    (hwf : CacheBounded c0)
    (hfold : foldBatch tk fl (initState fl, c0, []) B = Except.ok (st, cc, tt))
    (hasm : assemble st = Except.ok g)
    (hmax : maxOf (st.in_bonds.map List.length) = Except.ok M) :
    (∀ a, a < st.total_atoms →
      g.agraph.getD a [] =
        padTo M ((List.range st.all_bonds.length).filter
          (fun b => destOf st.all_bonds b = (a : Int)))) ∧
    (∀ b1, 1 ≤ b1 → b1 < st.all_bonds.length →
      g.bgraph.getD b1 [] =
        padTo M (((List.range st.all_bonds.length).filter
            (fun b2 => destOf st.all_bonds b2 = srcOf st.all_bonds b1)).map
          (fun b2 => if srcOf st.all_bonds b2 ≠ destOf st.all_bonds b1 then b2 else 0))) := by
  obtain ⟨hlen, hinv⟩ := foldBatch_inv tk fl B (initState fl, c0, []) (st, cc, tt)
    hwf (initState_inv fl).1 (initState_inv fl).2 hfold
  have hlen2 : st.in_bonds.length = st.total_atoms := hlen
  have hinv2 : StInv st.all_bonds st.in_bonds := hinv
  obtain ⟨hag, hbg⟩ := assemble_tables st g M hasm hmax
  obtain ⟨hab1, hab0, hbound, hrows⟩ := hinv2
  constructor
  · intro a ha
    have ha2 : a < st.in_bonds.length := by rw [hlen2]; exact ha
    rw [hag, getD_map_lt (padTo M) st.in_bonds [] [] a ha2, hrows a]
  · intro b1 hb11 hb1L
    have hrange : b1 < (List.range st.all_bonds.length).length := by simpa using hb1L
    rw [hbg, getD_map_lt _ (List.range st.all_bonds.length) [] 0 b1 hrange]
    have hb1v : (List.range st.all_bonds.length).getD b1 0 = b1 := by
      rw [List.getD_eq_getElem _ _ hrange, List.getElem_range]
    rw [hb1v, if_neg (by omega : ¬ b1 = 0)]
    obtain ⟨hs0, hsL, hd0, hdL⟩ := hbound b1 hb11 hb1L
    have hsrc : (((st.all_bonds.getD b1 (-1, -1)).1.toNat : Nat) : Int) =
        srcOf st.all_bonds b1 := Int.toNat_of_nonneg hs0
    rw [hrows ((st.all_bonds.getD b1 (-1, -1)).1.toNat)]
    simp only [hsrc]
    rfl

theorem c3_witness :
    CacheBounded [] ∧
    c3G.agraph.getD 1 [] =
      padTo c3M ((List.range c3St.1.all_bonds.length).filter
        (fun b => destOf c3St.1.all_bonds b = ((1 : Nat) : Int))) ∧
    c3G.bgraph.getD 1 [] =
      padTo c3M (((List.range c3St.1.all_bonds.length).filter
          (fun b2 => destOf c3St.1.all_bonds b2 = srcOf c3St.1.all_bonds 1)).map
        (fun b2 => if srcOf c3St.1.all_bonds b2 ≠ destOf c3St.1.all_bonds 1
          then b2 else 0)) := by
  have h := c3_agraph_bgraph toyTk flagsOff ["C", "CC"] [] c3St.1 c3St.2.1 c3St.2.2
    c3G c3M (by intro kv hkv; cases hkv) rfl rfl rfl
  exact ⟨(by intro kv hkv; cases hkv), h.1 1 (by decide), h.2 1 (by decide) (by decide)⟩
